import Mathlib

/-! The emoji map generator (`generate-map.js`).

A shallow embedding of the data-processing core of `generate-map.js`: the loader
of the Unicode records (`getUnicodeData` with its inner `stringToCodepoints`,
`fixupName` and `processEmoji`), the loader of the vendor map (`getGithubData`)
and the reconciliation done by `main`.

Modelling conventions.

* A JavaScript string is a Lean `String`: well-formed text, one `Char` per code
  point.  The program only iterates strings by code point (`[...s]`) or matches
  them against patterns, for which this view is exact.
* A plain object used as a dictionary is the list of its own properties in
  creation order (`Obj`); `Obj.entries` gives the order in which JavaScript
  enumerates them.  Every such object is written `{}` in the program, so it
  inherits the members of `Object.prototype` (`constructor`, `toString`,
  `__proto__`, ...): the read `o[k]` (`Obj.get`) gives the own property, else the
  inherited member (`Val`), and the assignment `o[k] = v` (`Obj.set`) creates no
  property for `__proto__`, whose inherited setter it runs.  `Obj.getOwn` looks
  at own properties only; it states what a mapping holds.  An object built by
  assignments therefore never holds a property `__proto__`; an object parsed
  from JSON, like the vendor map, may.
* `if (o[k])` tests truthiness: the value read is neither `undefined` nor the
  empty string.  An inherited member is a function or an object, so it is truthy.
* A pattern is the function that scans the characters as the pattern does:
  leftmost match first, global replacements from left to right.  The properties
  are stated on the groups of a sequence string, the pieces between its `-`.
* A `throw` is an error value.  `processEmoji` updates the object `result` in
  place, so its model returns the object as it is when the call ends together
  with the error, if one was thrown.
-/

namespace GenerateMap

/-! ## Objects -/

/-- A dictionary object, written `{}` in the program: its own properties, in
creation order, with values of type `α`. -/
abbrev Obj (α : Type) := List (String × α)

/-- The names of the properties of `Object.prototype`, the members that every
dictionary object inherits. -/
def protoNames : List String :=
  ["constructor", "__defineGetter__", "__defineSetter__", "hasOwnProperty",
   "__lookupGetter__", "__lookupSetter__", "isPrototypeOf", "propertyIsEnumerable",
   "toString", "valueOf", "__proto__", "toLocaleString"]

/-- A value read from a dictionary of strings: one of its strings, or the member
that `Object.prototype` has under the given name (a built-in function, and for
`__proto__` the prototype object itself). -/
inductive Val where
  | str (s : String)
  | inherited (k : String)
deriving DecidableEq, Repr

/-- The own property `k` of the object, if it has one. -/
def Obj.getOwn {α : Type} : Obj α → String → Option α
  | [], _ => none
  | (k', v) :: rest, k => if k' = k then some v else Obj.getOwn rest k

/-- The property read `o[k]` on a dictionary of strings: the own property, else
the member inherited from `Object.prototype`; `none` is `undefined`. -/
def Obj.get (o : Obj String) (k : String) : Option Val :=
  match o.getOwn k with
  | some v => some (.str v)
  | none => if k ∈ protoNames then some (.inherited k) else none

/-- The own property `k` defined as `v`: an existing property keeps its place,
a new one is created last. -/
def Obj.setOwn {α : Type} : Obj α → String → α → Obj α
  | [], k, v => [(k, v)]
  | (k', v') :: rest, k, v =>
    if k' = k then (k, v) :: rest else (k', v') :: Obj.setOwn rest k v

/-- The assignment `o[k] = v`.  It defines the own property `k`, except for
`k = "__proto__"` on an object without an own property of that name: there the
assignment runs the setter inherited from `Object.prototype`, which creates no
property: it ignores a string or `true`, and takes an object as the new
prototype of `o`.  The prototype of an object is not part of the model, which
always takes it to be `Object.prototype`; the program can give an object
another one only in the second loop of `main`, for a Source-A entry named
`__proto__`, and the Source-A loader returns no such entry. -/
def Obj.set {α : Type} (o : Obj α) (k : String) (v : α) : Obj α :=
  match o.getOwn k with
  | some _ => o.setOwn k v
  | none => if k = "__proto__" then o else o.setOwn k v

/-- The own property names, in creation order. -/
def Obj.keys {α : Type} (o : Obj α) : List String := o.map Prod.fst

/-- Truthiness of a value read from a dictionary of strings: `undefined` and the
empty string are falsy, an inherited member (a function or an object) is
truthy. -/
def truthy : Option Val → Bool
  | none => false
  | some (.str v) => decide (v ≠ "")
  | some (.inherited _) => true

/-- The value of `a || b` for a property read `a`. -/
def orElse (a : Option Val) (b : Val) : Val :=
  match a with
  | some v => if truthy (some v) = true then v else b
  | none => b

/-- The text of a member of `Object.prototype` when it is converted to a string,
as Node.js prints it: `[object Object]` for the prototype object and the
native-code form for a built-in function (the constructor is named `Object`). -/
def nativeText (k : String) : String :=
  if k = "__proto__" then "[object Object]"
  else if k = "constructor" then "function Object() \x7b [native code] \x7d"
  else "function " ++ (k ++ "() \x7b [native code] \x7d")

/-- String conversion of a property read, as done by `+`, by template literals
and by the use of a value as a property name. -/
def toStr : Option Val → String
  | none => "undefined"
  | some (.str v) => v
  | some (.inherited k) => nativeText k

/-- Truthiness of the read `o[k]` on a dictionary whose own values are all
`true`: the own property, or an inherited member. -/
def Obj.has (o : Obj Unit) (k : String) : Bool :=
  (o.getOwn k).isSome || decide (k ∈ protoNames)

/-- The number written by a string of decimal digits. -/
def digitsValue (cs : List Char) : Nat :=
  cs.foldl (fun n c => 10 * n + (c.toNat - 48)) 0

/-- Whether a property name is an array index (a canonical numeral below
`2^32 - 1`); such names are enumerated first, in ascending order. -/
def isArrayIndex (k : String) : Bool :=
  match k.data with
  | [] => false
  | [c] => c.isDigit
  | c :: cs =>
    decide (c ≠ '0') && (c :: cs).all Char.isDigit
      && decide (digitsValue (c :: cs) < 4294967295)

/-- The order of `Object.entries(o)`: array-index names in ascending numeric
order, then the other names in creation order. -/
def Obj.entries (o : Obj String) : List (String × String) :=
  (o.filter (fun p => isArrayIndex p.1)).insertionSort
      (fun p q => digitsValue p.1.data ≤ digitsValue q.1.data)
    ++ o.filter (fun p => !isArrayIndex p.1)

/-- The order of `Object.values(o)`. -/
def Obj.values (o : Obj String) : List String := (Obj.entries o).map Prod.snd

/-! ## Errors -/

/-- The errors thrown by the program, with the data their messages name. -/
inductive Err where
  /-- `Right-facing emoji includes unexpected skin tone qualifier; ...` -/
  | staleFixup
  /-- `Ambiguous Unicode emoji name ${name}: ${result[name]} <-> ${cps}` -/
  | ambiguousName (name old cps : String)
  /-- `Leftover ZWJ or VS15 in emoji ${rv} (${v})` -/
  | leftoverJoiner (rv v : String)
  /-- `Ambiguous Unicode emoji?! ${githubToUnicode[rv]} <-> ${v}` -/
  | ambiguousCodepoint (old v : String)
  /-- `GitHub emoji ${name} (${cps}) has no Unicode equivalent!` -/
  | unmatchedVendor (name cps : String)
  /-- `TypeError: name.toLowerCase is not a function` -/
  | notAFunction
deriving DecidableEq, Repr

deriving instance DecidableEq for Except

/-! ## Constant tables -/

/-- The manual override table. -/
def UNICODE_OVERRIDES : Obj String :=
  [("23-fe0f-20e3", "keycap: hash"),
   ("2a-fe0f-20e3", "keycap: asterisk")]

/-- The skin tone labels. -/
def SKIN_TONES : Obj String :=
  [("1f3fb", "light_skin_tone"),
   ("1f3fc", "medium-light_skin_tone"),
   ("1f3fd", "medium_skin_tone"),
   ("1f3fe", "medium-dark_skin_tone"),
   ("1f3ff", "dark_skin_tone")]

/-! ## Source-B loader: `getUnicodeData` -/

/-- An emoji record of the Unicode data: display string, description and the
list of variations (an absent list behaves as the empty one). -/
inductive Emoji where
  | mk (emoji : String) (description : String) (variations : List Emoji)

/-- The display string of a record. -/
def Emoji.emoji : Emoji → String
  | .mk e _ _ => e

/-- The description of a record. -/
def Emoji.description : Emoji → String
  | .mk _ d _ => d

/-- The variations of a record. -/
def Emoji.variations : Emoji → List Emoji
  | .mk _ _ vs => vs

/-- `[...s].map(c => c.codePointAt(0).toString(16)).join('-')`. -/
def stringToCodepoints (s : String) : String :=
  ⟨List.intercalate ['-'] (s.data.map fun c => Nat.toDigits 16 c.toNat)⟩

/-- Lower-casing of one character, as far as the result can stay within ASCII:
the ASCII capitals, U+0130 (to `i` and U+0307) and the Kelvin sign U+212A (to
`k`).  JavaScript maps every other character outside ASCII to characters
outside ASCII, all of which the next replacement deletes; they are left as
they are. -/
def lowerChar (c : Char) : List Char :=
  if 65 ≤ c.toNat ∧ c.toNat ≤ 90 then [Char.ofNat (c.toNat + 32)]
  else if c.toNat = 0x130 then ['i', Char.ofNat 0x307]
  else if c.toNat = 0x212A then ['k']
  else [c]

/-- `s.toLowerCase()`. -/
def toLowerCase (s : String) : String := ⟨s.data.flatMap lowerChar⟩

/-- The class `[a-z0-9 -]`. -/
def isNameChar (c : Char) : Bool :=
  decide ((97 ≤ c.toNat ∧ c.toNat ≤ 122) ∨ (48 ≤ c.toNat ∧ c.toNat ≤ 57)
    ∨ c = ' ' ∨ c = '-')

/-- `name.toLowerCase().replace(/[^a-z0-9 -]/g, '').replace(/ /g, '_')`. -/
def normalizeName (name : String) : String :=
  ⟨((toLowerCase name).data.filter isNameChar).map
    fun c => if c = ' ' then '_' else c⟩

/-- Whether the pattern, a plain string, occurs in the text. -/
def containsSub (pat : List Char) : List Char → Bool
  | [] => pat.isEmpty
  | c :: rest => pat.isPrefixOf (c :: rest) || containsSub pat rest

/-- The match of the pattern `-(1f3f[b-f])-` at the start of the text: its
group 1. -/
def skinToneAt (s : List Char) : Option String :=
  match s with
  | c0 :: c1 :: c2 :: c3 :: c4 :: x :: c6 :: _ =>
    if c0 = '-' ∧ c1 = '1' ∧ c2 = 'f' ∧ c3 = '3' ∧ c4 = 'f'
        ∧ (98 ≤ x.toNat ∧ x.toNat ≤ 102) ∧ c6 = '-' then
      some ⟨['1', 'f', '3', 'f', x]⟩
    else none
  | _ => none

/-- The call `exec(cps)` of the pattern `-(1f3f[b-f])-`: group 1 of the
leftmost match. -/
def execSkinTone : List Char → Option String
  | [] => none
  | c :: rest =>
    match skinToneAt (c :: rest) with
    | some m => some m
    | none => execSkinTone rest

/-- The function `fixupName`. -/
def fixupName (name cps : String) : Except Err String :=
  if "_facing_right".data.isSuffixOf name.data then
    match execSkinTone cps.data with
    | some m1 =>
      if containsSub "skin_tone".data name.data then .error .staleFixup
      else .ok (name ++ ("_" ++ toStr (SKIN_TONES.get m1)))
    | none => .ok name
  else .ok name

/-- The name under which `processEmoji` files a record: override or
description, normalized, then fixed up.  A value that is no string has no
method `toLowerCase`. -/
def resolveName (emoji description : String) : Except Err String :=
  let cps := stringToCodepoints emoji
  match orElse (UNICODE_OVERRIDES.get cps) (.str description) with
  | .str name => fixupName (normalizeName name) cps
  | .inherited _ => .error .notAFunction

/-- Lines 111 to 118 of `processEmoji`: the record's own entry.  The object
`result` after them, and the error thrown, if any. -/
def insertEmoji (result : Obj String) (emoji description : String) :
    Obj String × Option Err :=
  let cps := stringToCodepoints emoji
  match resolveName emoji description with
  | .error e => (result, some e)
  | .ok name =>
    if truthy (result.get name) then
      (result, some (.ambiguousName name (toStr (result.get name)) cps))
    else (result.set name cps, none)

mutual
/-- The function `processEmoji`, on the object `result` it updates: the object
when the call ends, and the error it threw, if any. -/
def processEmoji (result : Obj String) : Emoji → Obj String × Option Err
  | .mk emoji description variations =>
    match insertEmoji result emoji description with
    | (r, some e) => (r, some e)
    | (r, none) => forEachEmoji r variations
/-- The loop `list.forEach(processEmoji)`. -/
def forEachEmoji (result : Obj String) : List Emoji → Obj String × Option Err
  | [] => (result, none)
  | entry :: rest =>
    match processEmoji result entry with
    | (r, some e) => (r, some e)
    | (r, none) => forEachEmoji r rest
end

/-- The part of `getUnicodeData` after the data is parsed: the mapping built
from the top-level records `data.emojis`. -/
def getUnicodeData (emojis : List Emoji) : Except Err (Obj String) :=
  match forEachEmoji [] emojis with
  | (_, some e) => .error e
  | (result, none) => .ok result

/-! ## Reconciliation: `main` -/

/-- Whether the text starts with `200d` or `fe0f`. -/
def joinerPrefix (s : List Char) : Bool :=
  "200d".data.isPrefixOf s || "fe0f".data.isPrefixOf s

/-- Whether the text is empty or starts with `-`. -/
def atBoundary : List Char → Bool
  | [] => true
  | c :: _ => decide (c = '-')

/-- The call `v.replace(re, '')` for the global pattern `-(200d|fe0f)(?=-|$)`,
on the characters: matches are taken from left to right, and the look-ahead
consumes nothing. -/
def replaceJoiners : List Char → List Char
  | c0 :: c1 :: c2 :: c3 :: c4 :: rest =>
    if c0 = '-' ∧ joinerPrefix [c1, c2, c3, c4] = true ∧ atBoundary rest = true then
      replaceJoiners rest
    else c0 :: replaceJoiners (c1 :: c2 :: c3 :: c4 :: rest)
  | c :: rest => c :: replaceJoiners rest
  | [] => []

/-- Whether `(200d|fe0f)(-|$)` matches at the start of the text. -/
def joinerGroupAt (s : List Char) : Bool :=
  joinerPrefix s && atBoundary (s.drop 4)

/-- Whether `-(200d|fe0f)(-|$)` matches somewhere in the text. -/
def joinerAfterDash : List Char → Bool
  | [] => false
  | c :: rest => (decide (c = '-') && joinerGroupAt rest) || joinerAfterDash rest

/-- `/(^|-)(200d|fe0f)(-|$)/.test(rv)`. -/
def hasLeftover (rv : String) : Bool :=
  joinerGroupAt rv.data || joinerAfterDash rv.data

/-- The ZWJ/VS15 stripping of the reconciler: the replacement, then the
leftover check. -/
def stripJoinersAndSelectors (v : String) : Except Err String :=
  let rv : String := ⟨replaceJoiners v.data⟩
  if hasLeftover rv then .error (.leftoverJoiner rv v) else .ok rv

/-- The first loop of `main`: the table `githubToUnicode` from the values of
`unicodeData`. -/
def buildTable (githubToUnicode : Obj String) : List String → Except Err (Obj String)
  | [] => .ok githubToUnicode
  | v :: vs =>
    match stripJoinersAndSelectors v with
    | .error e => .error e
    | .ok rv =>
      if truthy (githubToUnicode.get rv) then
        .error (.ambiguousCodepoint (toStr (githubToUnicode.get rv)) v)
      else buildTable (githubToUnicode.set rv v) vs

/-- The second loop of `main`, over the entries of `githubData`: the objects
`result` and `codepointsSeen` (whose values are all `true`, here `()`).  The
value `realCPs` read from the table is a Source-B sequence or an inherited
member; it is stored as it is, and its string conversion is the property name
marked in `codepointsSeen`. -/
def claimVendor (githubToUnicode : Obj String) (result : Obj Val)
    (codepointsSeen : Obj Unit) :
    List (String × String) → Except Err (Obj Val × Obj Unit)
  | [] => .ok (result, codepointsSeen)
  | (name, cps) :: rest =>
    match githubToUnicode.get cps with
    | none => .error (.unmatchedVendor name cps)
    | some realCPs =>
      if truthy (some realCPs) = true then
        claimVendor githubToUnicode (result.set name realCPs)
          (codepointsSeen.set (toStr (some realCPs)) ()) rest
      else .error (.unmatchedVendor name cps)

/-- The third loop of `main`, over the entries of `unicodeData`. -/
def addUnclaimed (codepointsSeen : Obj Unit) (result : Obj Val) :
    List (String × String) → Obj Val
  | [] => result
  | (name, cps) :: rest =>
    if codepointsSeen.has cps = true then addUnclaimed codepointsSeen result rest
    else addUnclaimed codepointsSeen (result.set name (.str cps)) rest

/-- The function `main` on the two loaded mappings: the object `result` that it
writes out, or the error it throws.  The values of `result` are Source-B
sequences, and inherited members where the table lookup found one. -/
def main (githubData unicodeData : Obj String) : Except Err (Obj Val) :=
  match buildTable [] (Obj.values unicodeData) with
  | .error e => .error e
  | .ok githubToUnicode =>
    match claimVendor githubToUnicode [] [] (Obj.entries githubData) with
    | .error e => .error e
    | .ok (result, codepointsSeen) =>
      .ok (addUnclaimed codepointsSeen result (Obj.entries unicodeData))


/-! ## Notions used to state the properties -/

/-- A Source-B sequence is claimed when it is not empty and some Source-A entry
carries its stripped form.  (The second loop marks the string conversion of
what it read from the table, so a string that is the text of an inherited
member counts as claimed as well when a Source-A entry carries the name of
that member; no codepoint sequence is such a text.) -/
def claimedBy (githubData : Obj String) (cps : String) : Prop :=
  (cps ≠ "" ∧ ∃ p ∈ githubData, stripJoinersAndSelectors cps = .ok p.2)
    ∨ ∃ p ∈ githubData, p.2 ∈ protoNames ∧ cps = nativeText p.2

instance (githubData : Obj String) (cps : String) : Decidable (claimedBy githubData cps) := by
  unfold claimedBy
  infer_instance

mutual
/-- The records of a tree in depth-first pre-order: the record, then the
records of its variations. -/
def Emoji.records : Emoji → List Emoji
  | .mk emoji description variations =>
    .mk emoji description variations :: recordsOfList variations
/-- The records of a forest in depth-first pre-order. -/
def recordsOfList : List Emoji → List Emoji
  | [] => []
  | entry :: rest => entry.records ++ recordsOfList rest
end

/-- The own entries of a list of records, inserted one after the other until
an error is thrown. -/
def insertAll (result : Obj String) : List Emoji → Obj String × Option Err
  | [] => (result, none)
  | entry :: rest =>
    match insertEmoji result entry.emoji entry.description with
    | (r, some e) => (r, some e)
    | (r, none) => insertAll r rest

/-- Whether the facing-right fixup applies: the name ends in `_facing_right`
and the sequence has a skin tone modifier between two other groups. -/
def fixupApplies (name cps : String) : Bool :=
  "_facing_right".data.isSuffixOf name.data && (execSkinTone cps.data).isSome

/-- The class `[a-z0-9_-]`. -/
def isIdentChar (c : Char) : Bool :=
  decide ((97 ≤ c.toNat ∧ c.toNat ≤ 122) ∨ (48 ≤ c.toNat ∧ c.toNat ≤ 57)
    ∨ c = '_' ∨ c = '-')

/-- The groups of a sequence string: the pieces between the separators `-`, as
`s.split('-')` gives them. -/
def groups (s : String) : List (List Char) := s.data.splitOn '-'

/-- The string made of the groups joined by `-`. -/
def joinGroups (gs : List (List Char)) : String := ⟨List.intercalate ['-'] gs⟩

/-- The groups that follow a first group, each with its separator in front. -/
def dashed : List (List Char) → List Char
  | [] => []
  | g :: rest => '-' :: (g ++ dashed rest)

/-- Whether a group is `200d` (ZWJ) or `fe0f` (the variation selector). -/
def isJoiner (g : List Char) : Bool :=
  decide (g = "200d".data ∨ g = "fe0f".data)

/-- Whether a group is one of the five skin tone modifiers `1f3fb` .. `1f3ff`. -/
def isModifier (g : List Char) : Bool :=
  decide (g ∈ ["1f3fb".data, "1f3fc".data, "1f3fd".data, "1f3fe".data, "1f3ff".data])

/-- The interior groups of a sequence: all but the first and the last. -/
def interiorGroups (cps : String) : List (List Char) := (groups cps).tail.dropLast

/-- The value of a lower-case hexadecimal digit `0`..`9`, `a`..`f`. -/
def hexDigitValue (c : Char) : Option Nat :=
  if 48 ≤ c.toNat ∧ c.toNat ≤ 57 then some (c.toNat - 48)
  else if 97 ≤ c.toNat ∧ c.toNat ≤ 102 then some (c.toNat - 87)
  else none

/-- One step of reading a hexadecimal numeral from the left. -/
def hexStep (acc : Option Nat) (c : Char) : Option Nat :=
  match acc, hexDigitValue c with
  | some a, some v => some (16 * a + v)
  | _, _ => none

/-- The number written by a string of lower-case hexadecimal digits; `none`
when a character is not such a digit. -/
def hexValue (g : List Char) : Option Nat := g.foldl hexStep (some 0)

/-- The group `g` is the lower-case hexadecimal numeral of `n` without leading
zeros: it is not empty, reads as `n`, and starts with `0` only when it is `0`. -/
def isHexNumeralOf (g : List Char) (n : Nat) : Prop :=
  g ≠ [] ∧ hexValue g = some n ∧ (g.head? = some '0' → g = ['0'])

/-- A codepoint-sequence string is made of lower-case hexadecimal digits and
separators `-` only. -/
def isSequence (s : String) : Bool :=
  s.data.all (fun c => (hexDigitValue c).isSome || c == '-')

/-- What is left of one character of a description after the three steps of
the name normalization: an ASCII capital becomes the small letter, a small
letter, a digit and `-` stay, a space becomes `_`, and every other character
is deleted; of the two characters outside ASCII whose lower case has an ASCII
letter, U+0130 leaves `i` and the Kelvin sign U+212A leaves `k`. -/
def nameCharsOf (c : Char) : List Char :=
  if 65 ≤ c.toNat ∧ c.toNat ≤ 90 then [Char.ofNat (c.toNat + 32)]
  else if (97 ≤ c.toNat ∧ c.toNat ≤ 122) ∨ (48 ≤ c.toNat ∧ c.toNat ≤ 57) ∨ c = '-' then [c]
  else if c = ' ' then ['_']
  else if c.toNat = 0x130 then ['i']
  else if c.toNat = 0x212A then ['k']
  else []

/-- The call `m[1].replace(re, '$1')` for the global pattern `(^|-)0+`, on the
characters.  `atStart` says that what was read so far ends with the start of
the string or a `-`, followed by zeros only: a zero read then belongs to the
match and is dropped. -/
def stripZerosFrom (atStart : Bool) : List Char → List Char
  | [] => []
  | c :: rest =>
    if atStart = true ∧ c = '0' then stripZerosFrom true rest
    else if c = '-' then '-' :: stripZerosFrom true rest
    else c :: stripZerosFrom false rest

/-- The leading-zero stripping of the Source-A loader (line 84). -/
def stripLeadingZeros (s : String) : String := ⟨stripZerosFrom true s.data⟩

/-- A group without its leading zeros. -/
def dropZeros (g : List Char) : List Char := g.dropWhile (fun c => c == '0')

/-! ## Source-A loader: `getGithubData` -/

/-- The line terminators, the characters that `.` does not match. -/
def isLineTerminator (c : Char) : Bool :=
  decide (c = '\n' ∨ c = '\r' ∨ c.toNat = 0x2028 ∨ c.toNat = 0x2029)

/-- The part `(.+?)\.png` of the pattern, matched at the start of the text: the
lazy group, the shortest run of at least one character other than a line
terminator that is followed by `.png`. -/
def lazyGroupPng : List Char → Option (List Char)
  | [] => none
  | c :: rest =>
    if isLineTerminator c = true then none
    else if ".png".data.isPrefixOf rest = true then some [c]
    else (lazyGroupPng rest).map (fun m => c :: m)

/-- The pattern `\/unicode\/(.+?)\.png` matched at the start of the text: its
group 1. -/
def unicodePngAt (s : List Char) : Option (List Char) :=
  if "/unicode/".data.isPrefixOf s = true then lazyGroupPng (s.drop 9) else none

/-- The call `exec(url)` of the pattern `\/unicode\/(.+?)\.png`: group 1 of the
leftmost match. -/
def execUnicodePng : List Char → Option (List Char)
  | [] => none
  | c :: rest =>
    match unicodePngAt (c :: rest) with
    | some m => some m
    | none => execUnicodePng rest

/-- The loop of `getGithubData` over the keys of `githubRawData`. -/
def collectGithub (githubRawData : Obj String) (githubData : Obj String) :
    List String → Obj String
  | [] => githubData
  | key :: rest =>
    match execUnicodePng (toStr (githubRawData.get key)).data with
    | none => collectGithub githubRawData githubData rest
    | some m1 =>
      collectGithub githubRawData (githubData.set key (stripLeadingZeros ⟨m1⟩)) rest

/-- The part of `getGithubData` after the vendor map is parsed. -/
def getGithubData (githubRawData : Obj String) : Obj String :=
  collectGithub githubRawData [] ((Obj.entries githubRawData).map Prod.fst)

/-- The text `s` holds `/unicode/`, then the run `m` of at least one character,
none a line terminator, then `.png`; `pre` is what comes before and `post`
what comes after. -/
def isUnicodePngMatch (s pre m post : List Char) : Prop :=
  s = pre ++ ("/unicode/".data ++ (m ++ (".png".data ++ post)))
    ∧ m ≠ [] ∧ ∀ c ∈ m, isLineTerminator c = false

/-! ## Lemmas on objects -/

theorem Obj.getOwn_setOwn_self {α : Type} (o : Obj α) (k : String) (v : α) :
    (Obj.setOwn o k v).getOwn k = some v := by
  induction o with
  | nil => simp [Obj.setOwn, Obj.getOwn]
  | cons p rest ih =>
    obtain ⟨k', v'⟩ := p
    by_cases h : k' = k
    · simp [Obj.setOwn, Obj.getOwn, h]
    · simp [Obj.setOwn, Obj.getOwn, h, ih]

theorem Obj.getOwn_setOwn_ne {α : Type} (o : Obj α) (k : String) (v : α) (k2 : String)
    (hne : k2 ≠ k) : (Obj.setOwn o k v).getOwn k2 = o.getOwn k2 := by
  induction o with
  | nil => simp [Obj.setOwn, Obj.getOwn, Ne.symm hne]
  | cons p rest ih =>
    obtain ⟨k', v'⟩ := p
    by_cases h : k' = k
    · subst h
      simp [Obj.setOwn, Obj.getOwn, Ne.symm hne]
    · by_cases h2 : k' = k2
      · subst h2
        simp [Obj.setOwn, Obj.getOwn, h]
      · simp [Obj.setOwn, Obj.getOwn, h, h2, ih]

theorem Obj.mem_of_getOwn {α : Type} {o : Obj α} {k : String} {v : α}
    (h : o.getOwn k = some v) : (k, v) ∈ o := by
  induction o with
  | nil => simp [Obj.getOwn] at h
  | cons p rest ih =>
    obtain ⟨k', v'⟩ := p
    by_cases hk : k' = k
    · simp [Obj.getOwn, hk] at h
      simp [hk, h]
    · simp [Obj.getOwn, hk] at h
      exact List.mem_cons_of_mem _ (ih h)

theorem Obj.getOwn_eq_none {α : Type} {o : Obj α} {k : String} (h : k ∉ o.keys) :
    o.getOwn k = none := by
  induction o with
  | nil => rfl
  | cons p rest ih =>
    obtain ⟨k', v'⟩ := p
    simp [Obj.keys] at h
    have h1 : ¬ k' = k := fun e => h.1 e.symm
    simp only [Obj.getOwn, h1, if_false]
    apply ih
    simpa [Obj.keys] using h.2

theorem Obj.not_mem_keys_of_getOwn {α : Type} {o : Obj α} {k : String}
    (h : o.getOwn k = none) : k ∉ o.keys := by
  induction o with
  | nil => simp [Obj.keys]
  | cons p rest ih =>
    obtain ⟨k', v'⟩ := p
    by_cases hk : k' = k
    · simp [Obj.getOwn, hk] at h
    · simp only [Obj.getOwn, hk, if_false] at h
      simp only [Obj.keys, List.map_cons, List.mem_cons, not_or]
      exact ⟨fun e => hk e.symm, ih h⟩

theorem Obj.getOwn_of_mem {α : Type} {o : Obj α} {k : String} {v : α}
    (hnd : o.keys.Nodup) (h : (k, v) ∈ o) : o.getOwn k = some v := by
  induction o with
  | nil => simp at h
  | cons p rest ih =>
    obtain ⟨k', v'⟩ := p
    simp only [Obj.keys, List.map_cons, List.nodup_cons] at hnd
    rcases List.mem_cons.1 h with heq | hrest
    · cases heq
      simp [Obj.getOwn]
    · have hk : k' ≠ k := by
        intro e
        subst e
        exact hnd.1 (List.mem_map.2 ⟨(k', v), hrest, rfl⟩)
      simp only [Obj.getOwn, hk, if_false]
      exact ih hnd.2 hrest

theorem Obj.mem_setOwn {α : Type} {o : Obj α} {k : String} {v : α} {p : String × α}
    (h : p ∈ Obj.setOwn o k v) : p = (k, v) ∨ p ∈ o := by
  induction o with
  | nil => simpa [Obj.setOwn] using h
  | cons q rest ih =>
    obtain ⟨k', v'⟩ := q
    by_cases hk : k' = k
    · simp only [Obj.setOwn, hk, if_true, List.mem_cons] at h
      rcases h with h | h
      · exact Or.inl h
      · exact Or.inr (List.mem_cons_of_mem _ h)
    · simp only [Obj.setOwn, hk, if_false, List.mem_cons] at h
      rcases h with h | h
      · exact Or.inr (by simp [h])
      · rcases ih h with h | h
        · exact Or.inl h
        · exact Or.inr (List.mem_cons_of_mem _ h)

theorem Obj.keys_setOwn {α : Type} (o : Obj α) (k : String) (v : α) :
    (Obj.setOwn o k v).keys = if k ∈ o.keys then o.keys else o.keys ++ [k] := by
  induction o with
  | nil => simp [Obj.setOwn, Obj.keys]
  | cons q rest ih =>
    obtain ⟨k', v'⟩ := q
    by_cases hk : k' = k
    · simp [Obj.setOwn, Obj.keys, hk]
    · have hk2 : ¬ k = k' := fun e => hk e.symm
      simp only [Obj.keys] at ih
      simp only [Obj.setOwn, hk, if_false, Obj.keys, List.map_cons, List.mem_cons, hk2,
        false_or, ih]
      split <;> simp

theorem Obj.nodup_setOwn {α : Type} {o : Obj α} (k : String) (v : α) (h : o.keys.Nodup) :
    (Obj.setOwn o k v).keys.Nodup := by
  rw [Obj.keys_setOwn]
  split
  · exact h
  · rename_i hk
    exact List.Nodup.append h (by simp) (by simpa using hk)

theorem Obj.length_keys {α : Type} (o : Obj α) : o.keys.length = o.length := by
  simp [Obj.keys]

/-- The assignment either defines the own property or, for `__proto__` on an
object without such an own property, leaves the object as it is. -/
theorem Obj.set_cases {α : Type} (o : Obj α) (k : String) (v : α) :
    Obj.set o k v = o.setOwn k v
      ∨ (k = "__proto__" ∧ o.getOwn k = none ∧ Obj.set o k v = o) := by
  unfold Obj.set
  cases hg : o.getOwn k with
  | some w => exact Or.inl rfl
  | none =>
    by_cases hk : k = "__proto__"
    · exact Or.inr ⟨hk, rfl, by simp [hk]⟩
    · exact Or.inl (by simp [hk])

theorem Obj.set_of_ne {α : Type} (o : Obj α) {k : String} (v : α) (hk : k ≠ "__proto__") :
    Obj.set o k v = o.setOwn k v := by
  rcases Obj.set_cases o k v with h | ⟨h, _, _⟩
  · exact h
  · exact absurd h hk

theorem Obj.set_of_own {α : Type} (o : Obj α) {k : String} (v : α) {w : α}
    (hk : o.getOwn k = some w) : Obj.set o k v = o.setOwn k v := by
  rcases Obj.set_cases o k v with h | ⟨_, h, _⟩
  · exact h
  · rw [hk] at h
    cases h

theorem Obj.set_proto {α : Type} (o : Obj α) (v : α) (hk : o.getOwn "__proto__" = none) :
    Obj.set o "__proto__" v = o := by
  simp [Obj.set, hk]

theorem Obj.getOwn_set_ne {α : Type} (o : Obj α) (k : String) (v : α) (k2 : String)
    (hne : k2 ≠ k) : (Obj.set o k v).getOwn k2 = o.getOwn k2 := by
  rcases Obj.set_cases o k v with h | ⟨_, _, h⟩
  · rw [h, Obj.getOwn_setOwn_ne _ _ _ _ hne]
  · rw [h]

theorem Obj.getOwn_set_self {α : Type} (o : Obj α) {k : String} (v : α)
    (hk : k ≠ "__proto__") : (Obj.set o k v).getOwn k = some v := by
  rw [Obj.set_of_ne o v hk, Obj.getOwn_setOwn_self]

theorem Obj.mem_set {α : Type} {o : Obj α} {k : String} {v : α} {p : String × α}
    (h : p ∈ Obj.set o k v) : (p = (k, v) ∧ (k = "__proto__" → k ∈ o.keys)) ∨ p ∈ o := by
  rcases Obj.set_cases o k v with hs | ⟨_, _, hs⟩
  · rw [hs] at h
    rcases Obj.mem_setOwn h with h1 | h1
    · by_cases hk : k ∈ o.keys
      · exact Or.inl ⟨h1, fun _ => hk⟩
      · by_cases hp : k = "__proto__"
        · exfalso
          have hnone := Obj.getOwn_eq_none hk
          have := Obj.set_proto o v (by rw [← hp]; exact hnone)
          rw [← hp, hs] at this
          have hk2 := Obj.keys_setOwn o k v
          rw [this, if_neg hk] at hk2
          have := congrArg List.length hk2
          simp at this
        · exact Or.inl ⟨h1, fun e => absurd e hp⟩
    · exact Or.inr h1
  · rw [hs] at h
    exact Or.inr h

theorem Obj.nodup_set {α : Type} {o : Obj α} (k : String) (v : α) (h : o.keys.Nodup) :
    (Obj.set o k v).keys.Nodup := by
  rcases Obj.set_cases o k v with hs | ⟨_, _, hs⟩
  · rw [hs]
    exact Obj.nodup_setOwn k v h
  · rw [hs]
    exact h

theorem Obj.proto_not_mem_set {α : Type} {o : Obj α} (k : String) (v : α)
    (h : "__proto__" ∉ o.keys) : "__proto__" ∉ (Obj.set o k v).keys := by
  rcases Obj.set_cases o k v with hs | ⟨_, _, hs⟩
  · by_cases hk : k = "__proto__"
    · exfalso
      subst hk
      have := Obj.set_proto o v (Obj.getOwn_eq_none h)
      rw [hs] at this
      have hk2 := Obj.keys_setOwn o "__proto__" v
      rw [this, if_neg h] at hk2
      have := congrArg List.length hk2
      simp at this
    · rw [hs, Obj.keys_setOwn]
      split
      · exact h
      · simp only [List.mem_append, List.mem_singleton, not_or]
        exact ⟨h, fun e => hk e.symm⟩
  · rw [hs]
    exact h

theorem Obj.get_eq_str_iff {o : Obj String} {k v : String} :
    o.get k = some (.str v) ↔ o.getOwn k = some v := by
  unfold Obj.get
  cases hg : o.getOwn k with
  | some w => simp
  | none =>
    by_cases hp : k ∈ protoNames
    · simp [hp]
    · simp [hp]

theorem Obj.get_eq_inherited_iff {o : Obj String} {k j : String} :
    o.get k = some (.inherited j) ↔ o.getOwn k = none ∧ k ∈ protoNames ∧ j = k := by
  unfold Obj.get
  cases hg : o.getOwn k with
  | some w => simp
  | none =>
    by_cases hp : k ∈ protoNames
    · simp only [hp, if_true, Option.some.injEq, Val.inherited.injEq, true_and]
      exact ⟨fun e => e.symm, fun e => e.symm⟩
    · simp [hp]

theorem Obj.get_eq_none_iff {o : Obj String} {k : String} :
    o.get k = none ↔ o.getOwn k = none ∧ k ∉ protoNames := by
  unfold Obj.get
  cases hg : o.getOwn k with
  | some w => simp
  | none =>
    by_cases hp : k ∈ protoNames
    · simp [hp]
    · simp [hp]

theorem Obj.get_of_not_proto {o : Obj String} {k : String} (hp : k ∉ protoNames) :
    o.get k = (o.getOwn k).map Val.str := by
  unfold Obj.get
  cases hg : o.getOwn k with
  | some w => rfl
  | none => simp [hp]

theorem truthy_get_iff {o : Obj String} {k : String} :
    truthy (o.get k) = true ↔
      (∃ w, o.getOwn k = some w ∧ w ≠ "") ∨ (o.getOwn k = none ∧ k ∈ protoNames) := by
  unfold Obj.get
  cases hg : o.getOwn k with
  | some w => simp [truthy]
  | none =>
    by_cases hp : k ∈ protoNames
    · simp [hp, truthy]
    · simp [hp, truthy]

theorem truthy_get_false_iff {o : Obj String} {k : String} :
    truthy (o.get k) = false ↔
      (o.getOwn k = none ∧ k ∉ protoNames) ∨ o.getOwn k = some "" := by
  unfold Obj.get
  cases hg : o.getOwn k with
  | some w => simp [truthy]
  | none =>
    by_cases hp : k ∈ protoNames
    · simp [hp, truthy]
    · simp [hp, truthy]

/-- After a falsy read `o[k]`, the assignment `o[k] = v` defines the own
property: the name `__proto__` reads falsy only as an own property. -/
theorem Obj.set_of_falsy {o : Obj String} {k : String} (v : String)
    (h : truthy (o.get k) = false) : Obj.set o k v = o.setOwn k v := by
  rcases truthy_get_false_iff.1 h with ⟨_, hp⟩ | hown
  · apply Obj.set_of_ne
    rintro rfl
    exact hp (by decide)
  · exact Obj.set_of_own o v hown

theorem Obj.entries_perm (o : Obj String) : (Obj.entries o).Perm o := by
  unfold Obj.entries
  refine List.Perm.trans (List.Perm.append_right _ (List.perm_insertionSort _ _)) ?_
  exact List.filter_append_perm _ o

theorem Obj.mem_entries {o : Obj String} {p : String × String} :
    p ∈ Obj.entries o ↔ p ∈ o :=
  (Obj.entries_perm o).mem_iff

theorem Obj.nodup_entries {o : Obj String} (h : o.keys.Nodup) :
    ((Obj.entries o).map Prod.fst).Nodup :=
  ((Obj.entries_perm o).map Prod.fst).nodup_iff.2 h

theorem Obj.mem_values {o : Obj String} {v : String} :
    v ∈ Obj.values o ↔ ∃ k, (k, v) ∈ o := by
  unfold Obj.values
  constructor
  · intro h
    obtain ⟨p, hp, rfl⟩ := List.mem_map.1 h
    exact ⟨p.1, Obj.mem_entries.1 hp⟩
  · rintro ⟨k, hk⟩
    exact List.mem_map.2 ⟨(k, v), Obj.mem_entries.2 hk, rfl⟩

theorem truthy_iff {x : Option Val} :
    truthy x = true ↔ (∃ w, x = some (.str w) ∧ w ≠ "") ∨ ∃ k, x = some (.inherited k) := by
  cases x with
  | none => simp [truthy]
  | some v =>
    cases v with
    | str s => simp [truthy]
    | inherited k => simp [truthy]


/-! ## Lemmas on the loops of `main` -/

theorem strip_protoName : ∀ k ∈ protoNames, stripJoinersAndSelectors k = .ok k := by
  decide

theorem hasLeftover_protoName : ∀ k ∈ protoNames, hasLeftover k = false := by
  decide

theorem buildTable_cons_ok {tbl t2 : Obj String} {v : String} {vs : List String}
    (h : buildTable tbl (v :: vs) = .ok t2) :
    ∃ rv, stripJoinersAndSelectors v = .ok rv ∧ truthy (tbl.get rv) = false
      ∧ buildTable (tbl.setOwn rv v) vs = .ok t2 := by
  unfold buildTable at h
  cases hs : stripJoinersAndSelectors v with
  | error e => simp [hs] at h
  | ok rv =>
    simp only [hs] at h
    by_cases ht : truthy (tbl.get rv) = true
    · simp [ht] at h
    · have hf : truthy (tbl.get rv) = false := by simpa using ht
      simp only [ht] at h
      rw [Obj.set_of_falsy v hf] at h
      exact ⟨rv, rfl, hf, by simpa using h⟩

theorem truthy_get_of_own {o : Obj String} {k w : String} (hk : o.getOwn k = some w)
    (hw : w ≠ "") : truthy (o.get k) = true :=
  truthy_get_iff.2 (Or.inl ⟨w, hk, hw⟩)

theorem buildTable_persist {vs : List String} {tbl t2 : Obj String} {k w : String}
    (h : buildTable tbl vs = .ok t2) (hk : tbl.getOwn k = some w) (hw : w ≠ "") :
    t2.getOwn k = some w := by
  induction vs generalizing tbl with
  | nil =>
    simp only [buildTable, Except.ok.injEq] at h
    subst h
    exact hk
  | cons v vs ih =>
    obtain ⟨rv, _, hf, hrest⟩ := buildTable_cons_ok h
    apply ih hrest
    have hne : k ≠ rv := by
      intro e
      subst e
      rw [truthy_get_of_own hk hw] at hf
      exact Bool.noConfusion hf
    rw [Obj.getOwn_setOwn_ne _ _ _ _ hne]
    exact hk

theorem buildTable_complete {vs : List String} {tbl t2 : Obj String} {v rv : String}
    (h : buildTable tbl vs = .ok t2) (hv : v ∈ vs) (hne : v ≠ "")
    (hs : stripJoinersAndSelectors v = .ok rv) : t2.getOwn rv = some v := by
  induction vs generalizing tbl with
  | nil => simp at hv
  | cons v0 vs ih =>
    obtain ⟨rv0, hs0, _, hrest⟩ := buildTable_cons_ok h
    rcases List.mem_cons.1 hv with heq | hmem
    · subst heq
      rw [hs] at hs0
      cases hs0
      exact buildTable_persist hrest (Obj.getOwn_setOwn_self _ _ _) hne
    · exact ih hrest hmem

theorem buildTable_sound {vs : List String} {tbl t2 : Obj String} {k w : String}
    (h : buildTable tbl vs = .ok t2) (hk : t2.getOwn k = some w) :
    tbl.getOwn k = some w ∨ (w ∈ vs ∧ stripJoinersAndSelectors w = .ok k) := by
  induction vs generalizing tbl with
  | nil =>
    simp only [buildTable, Except.ok.injEq] at h
    subst h
    exact Or.inl hk
  | cons v vs ih =>
    obtain ⟨rv, hs, _, hrest⟩ := buildTable_cons_ok h
    rcases ih hrest with h1 | ⟨h1, h2⟩
    · by_cases hkr : k = rv
      · subst hkr
        rw [Obj.getOwn_setOwn_self] at h1
        cases h1
        exact Or.inr ⟨List.mem_cons_self _ _, hs⟩
      · rw [Obj.getOwn_setOwn_ne _ _ _ _ hkr] at h1
        exact Or.inl h1
    · exact Or.inr ⟨List.mem_cons_of_mem _ h1, h2⟩

/-- No sequence that enters the table strips to the name of an inherited
member: the read of that name is truthy, so the loop throws. -/
theorem buildTable_not_proto {vs : List String} {tbl t2 : Obj String}
    (h : buildTable tbl vs = .ok t2)
    (hinv : ∀ k, tbl.getOwn k = some "" → k ∉ protoNames) :
    ∀ v ∈ vs, ∀ rv, stripJoinersAndSelectors v = .ok rv → rv ∉ protoNames := by
  induction vs generalizing tbl with
  | nil => simp
  | cons v0 vs ih =>
    obtain ⟨rv0, hs0, hf, hrest⟩ := buildTable_cons_ok h
    have h0 : rv0 ∉ protoNames := by
      rcases truthy_get_false_iff.1 hf with ⟨_, hp⟩ | hown
      · exact hp
      · exact hinv _ hown
    have hinv2 : ∀ k, (tbl.setOwn rv0 v0).getOwn k = some "" → k ∉ protoNames := by
      intro k hk
      by_cases hkr : k = rv0
      · rw [hkr]
        exact h0
      · rw [Obj.getOwn_setOwn_ne _ _ _ _ hkr] at hk
        exact hinv k hk
    intro v hv rv hs
    rcases List.mem_cons.1 hv with rfl | hv
    · rw [hs] at hs0
      cases hs0
      exact h0
    · exact ih hrest hinv2 v hv rv hs

theorem buildTable_value_not_proto {vs : List String} {t2 : Obj String}
    (h : buildTable [] vs = .ok t2) {v : String} (hv : v ∈ vs) : v ∉ protoNames := by
  intro hp
  exact buildTable_not_proto h (by simp [Obj.getOwn]) v hv v (strip_protoName v hp) hp

theorem buildTable_error {vs : List String} {tbl : Obj String} {e : Err}
    (h : buildTable tbl vs = .error e) :
    (∃ rv v, e = .leftoverJoiner rv v ∧ v ∈ vs ∧ stripJoinersAndSelectors v = .error e)
      ∨ (∃ old v, e = .ambiguousCodepoint old v ∧ v ∈ vs) := by
  induction vs generalizing tbl with
  | nil => simp [buildTable] at h
  | cons v vs ih =>
    unfold buildTable at h
    cases hs : stripJoinersAndSelectors v with
    | error e2 =>
      simp only [hs, Except.error.injEq] at h
      subst h
      left
      have hs2 := hs
      unfold stripJoinersAndSelectors at hs2
      simp only at hs2
      split at hs2
      · simp only [Except.error.injEq] at hs2
        exact ⟨_, _, hs2.symm, List.mem_cons_self _ _, hs⟩
      · simp at hs2
    | ok rv =>
      simp only [hs] at h
      by_cases ht : truthy (tbl.get rv) = true
      · simp only [ht, if_true, Except.error.injEq] at h
        exact Or.inr ⟨_, _, h.symm, List.mem_cons_self _ _⟩
      · simp only [ht] at h
        rcases ih (by simpa using h) with ⟨rv2, v2, h1, h2, h3⟩ | ⟨old, v2, h1, h2⟩
        · exact Or.inl ⟨rv2, v2, h1, List.mem_cons_of_mem _ h2, h3⟩
        · exact Or.inr ⟨old, v2, h1, List.mem_cons_of_mem _ h2⟩

theorem claimVendor_cons_ok {tbl : Obj String} {result : Obj Val} {seen : Obj Unit}
    {n s : String} {rest : List (String × String)} {x : Obj Val × Obj Unit}
    (h : claimVendor tbl result seen ((n, s) :: rest) = .ok x) :
    ∃ f, tbl.get s = some f ∧ truthy (some f) = true
      ∧ claimVendor tbl (result.set n f) (seen.set (toStr (some f)) ()) rest = .ok x := by
  unfold claimVendor at h
  cases hg : tbl.get s with
  | none => simp [hg] at h
  | some f =>
    simp only [hg] at h
    by_cases hv : truthy (some f) = true
    · simp only [hv, if_true] at h
      exact ⟨f, rfl, hv, h⟩
    · simp [hv] at h

theorem claimVendor_truthy {es : List (String × String)} {tbl : Obj String}
    {result : Obj Val} {seen : Obj Unit} {x : Obj Val × Obj Unit}
    (h : claimVendor tbl result seen es = .ok x) :
    ∀ p ∈ es, truthy (tbl.get p.2) = true := by
  induction es generalizing result seen with
  | nil => simp
  | cons p rest ih =>
    obtain ⟨n, s⟩ := p
    obtain ⟨f, hf, htr, hrest⟩ := claimVendor_cons_ok h
    intro q hq
    rcases List.mem_cons.1 hq with rfl | hq
    · simp only
      rw [hf]
      exact htr
    · exact ih hrest q hq

theorem Obj.has_set (o : Obj Unit) (k c : String) :
    (Obj.set o k ()).has c = true ↔ o.has c = true ∨ c = k := by
  rcases Obj.set_cases o k () with hs | ⟨hk, hnone, hs⟩
  · rw [hs]
    unfold Obj.has
    by_cases hck : c = k
    · subst hck
      simp [Obj.getOwn_setOwn_self]
    · simp [Obj.getOwn_setOwn_ne _ _ _ _ hck, hck]
  · rw [hs]
    constructor
    · exact Or.inl
    · rintro (h | h)
      · exact h
      · subst h
        subst hk
        simp only [Obj.has, Bool.or_eq_true, decide_eq_true_eq]
        exact Or.inr (by decide)

theorem claimVendor_has {es : List (String × String)} {tbl : Obj String}
    {result r2 : Obj Val} {seen seen2 : Obj Unit}
    (h : claimVendor tbl result seen es = .ok (r2, seen2)) (c : String) :
    seen2.has c = true ↔ seen.has c = true ∨ ∃ p ∈ es, toStr (tbl.get p.2) = c := by
  induction es generalizing result seen with
  | nil =>
    simp only [claimVendor, Except.ok.injEq, Prod.mk.injEq] at h
    simp [h.2]
  | cons p rest ih =>
    obtain ⟨n, s⟩ := p
    obtain ⟨f, hf, _, hrest⟩ := claimVendor_cons_ok h
    rw [ih hrest, Obj.has_set]
    constructor
    · rintro ((h1 | h1) | ⟨q, hq, hqc⟩)
      · exact Or.inl h1
      · exact Or.inr ⟨(n, s), List.mem_cons_self _ _, by simp only; rw [hf, h1]⟩
      · exact Or.inr ⟨q, List.mem_cons_of_mem _ hq, hqc⟩
    · rintro (h1 | ⟨q, hq, hqc⟩)
      · exact Or.inl (Or.inl h1)
      · rcases List.mem_cons.1 hq with rfl | hq
        · left
          right
          simp only at hqc
          rw [hf] at hqc
          exact hqc.symm
        · exact Or.inr ⟨q, hq, hqc⟩

theorem claimVendor_getOwn_other {es : List (String × String)} {tbl : Obj String}
    {result r2 : Obj Val} {seen seen2 : Obj Unit} {n : String}
    (h : claimVendor tbl result seen es = .ok (r2, seen2)) (hn : n ∉ es.map Prod.fst) :
    r2.getOwn n = result.getOwn n := by
  induction es generalizing result seen with
  | nil =>
    simp only [claimVendor, Except.ok.injEq, Prod.mk.injEq] at h
    rw [h.1]
  | cons p rest ih =>
    obtain ⟨n0, s0⟩ := p
    obtain ⟨f, _, _, hrest⟩ := claimVendor_cons_ok h
    simp only [List.map_cons, List.mem_cons, not_or] at hn
    rw [ih hrest hn.2, Obj.getOwn_set_ne _ _ _ _ hn.1]

theorem claimVendor_getOwn {es : List (String × String)} {tbl : Obj String}
    {result r2 : Obj Val} {seen seen2 : Obj Unit} {n s : String}
    (h : claimVendor tbl result seen es = .ok (r2, seen2))
    (hnd : (es.map Prod.fst).Nodup) (hmem : (n, s) ∈ es) (hn : n ≠ "__proto__") :
    r2.getOwn n = tbl.get s := by
  induction es generalizing result seen with
  | nil => simp at hmem
  | cons p rest ih =>
    obtain ⟨n0, s0⟩ := p
    obtain ⟨f, hf, _, hrest⟩ := claimVendor_cons_ok h
    simp only [List.map_cons, List.nodup_cons] at hnd
    rcases List.mem_cons.1 hmem with heq | hmem
    · cases heq
      rw [claimVendor_getOwn_other hrest hnd.1, Obj.getOwn_set_self _ _ hn, hf]
    · exact ih hrest hnd.2 hmem

theorem claimVendor_mem {es : List (String × String)} {tbl : Obj String}
    {result r2 : Obj Val} {seen seen2 : Obj Unit} {q : String × Val}
    (h : claimVendor tbl result seen es = .ok (r2, seen2)) (hq : q ∈ r2) :
    q ∈ result ∨ ∃ p ∈ es, p.1 = q.1 ∧ tbl.get p.2 = some q.2 := by
  induction es generalizing result seen with
  | nil =>
    simp only [claimVendor, Except.ok.injEq, Prod.mk.injEq] at h
    rw [h.1]
    exact Or.inl hq
  | cons p rest ih =>
    obtain ⟨n0, s0⟩ := p
    obtain ⟨f, hf, _, hrest⟩ := claimVendor_cons_ok h
    rcases ih hrest with h1 | ⟨p, hp, hp1, hp2⟩
    · rcases Obj.mem_set h1 with ⟨h2, _⟩ | h2
      · right
        refine ⟨(n0, s0), List.mem_cons_self _ _, ?_, ?_⟩
        · rw [h2]
        · rw [h2]
          exact hf
      · exact Or.inl h2
    · exact Or.inr ⟨p, List.mem_cons_of_mem _ hp, hp1, hp2⟩

theorem claimVendor_error {es : List (String × String)} {tbl : Obj String}
    {result : Obj Val} {seen : Obj Unit} {e : Err}
    (h : claimVendor tbl result seen es = .error e) :
    ∃ p ∈ es, e = .unmatchedVendor p.1 p.2 := by
  induction es generalizing result seen with
  | nil => simp [claimVendor] at h
  | cons p rest ih =>
    obtain ⟨n0, s0⟩ := p
    unfold claimVendor at h
    cases hg : tbl.get s0 with
    | none =>
      simp only [hg, Except.error.injEq] at h
      exact ⟨(n0, s0), List.mem_cons_self _ _, h.symm⟩
    | some f =>
      simp only [hg] at h
      by_cases hv : truthy (some f) = true
      · simp only [hv, if_true] at h
        obtain ⟨p, hp, he⟩ := ih h
        exact ⟨p, List.mem_cons_of_mem _ hp, he⟩
      · simp only [hv, Bool.false_eq_true, if_false, Except.error.injEq] at h
        exact ⟨(n0, s0), List.mem_cons_self _ _, h.symm⟩

theorem addUnclaimed_getOwn_other {es : List (String × String)} {seen : Obj Unit}
    {result : Obj Val} {n : String} (hn : ∀ c, (n, c) ∈ es → seen.has c = true) :
    (addUnclaimed seen result es).getOwn n = result.getOwn n := by
  induction es generalizing result with
  | nil => rfl
  | cons p rest ih =>
    obtain ⟨n0, c0⟩ := p
    have hrest : ∀ c, (n, c) ∈ rest → seen.has c = true :=
      fun c hc => hn c (List.mem_cons_of_mem _ hc)
    unfold addUnclaimed
    by_cases hc : seen.has c0 = true
    · simp only [hc, if_true]
      exact ih hrest
    · rw [if_neg hc, ih hrest]
      apply Obj.getOwn_set_ne
      intro e
      subst e
      exact hc (hn c0 (List.mem_cons_self _ _))

theorem addUnclaimed_getOwn_absent {es : List (String × String)} {seen : Obj Unit}
    {result : Obj Val} {n : String} (hn : n ∉ es.map Prod.fst) :
    (addUnclaimed seen result es).getOwn n = result.getOwn n := by
  apply addUnclaimed_getOwn_other
  intro c hc
  exact absurd (List.mem_map.2 ⟨(n, c), hc, rfl⟩) hn

theorem addUnclaimed_getOwn {es : List (String × String)} {seen : Obj Unit}
    {result : Obj Val} {n c : String} (hnd : (es.map Prod.fst).Nodup) (hmem : (n, c) ∈ es)
    (hc : seen.has c = false) (hn : n ≠ "__proto__") :
    (addUnclaimed seen result es).getOwn n = some (.str c) := by
  induction es generalizing result with
  | nil => simp at hmem
  | cons p rest ih =>
    obtain ⟨n0, c0⟩ := p
    simp only [List.map_cons, List.nodup_cons] at hnd
    rcases List.mem_cons.1 hmem with heq | hmem
    · cases heq
      unfold addUnclaimed
      simp only [hc, Bool.false_eq_true, if_false]
      rw [addUnclaimed_getOwn_absent hnd.1, Obj.getOwn_set_self _ _ hn]
    · unfold addUnclaimed
      split
      · exact ih hnd.2 hmem
      · exact ih hnd.2 hmem

theorem addUnclaimed_mem {es : List (String × String)} {seen : Obj Unit}
    {result : Obj Val} {q : String × Val} (hq : q ∈ addUnclaimed seen result es) :
    q ∈ result ∨ ∃ c, q.2 = .str c ∧ (q.1, c) ∈ es ∧ seen.has c = false := by
  induction es generalizing result with
  | nil => exact Or.inl hq
  | cons p rest ih =>
    obtain ⟨n0, c0⟩ := p
    unfold addUnclaimed at hq
    by_cases hc : seen.has c0 = true
    · simp only [hc, if_true] at hq
      rcases ih hq with h | ⟨c, h1, h2, h3⟩
      · exact Or.inl h
      · exact Or.inr ⟨c, h1, List.mem_cons_of_mem _ h2, h3⟩
    · rw [if_neg hc] at hq
      rcases ih hq with h | ⟨c, h1, h2, h3⟩
      · rcases Obj.mem_set h with ⟨h, _⟩ | h
        · refine Or.inr ⟨c0, by rw [h], by rw [h]; exact List.mem_cons_self _ _, ?_⟩
          simpa using hc
        · exact Or.inl h
      · exact Or.inr ⟨c, h1, List.mem_cons_of_mem _ h2, h3⟩

theorem main_ok {g u : Obj String} {r : Obj Val} (h : main g u = .ok r) :
    ∃ tbl result seen, buildTable [] (Obj.values u) = .ok tbl
      ∧ claimVendor tbl [] [] (Obj.entries g) = .ok (result, seen)
      ∧ r = addUnclaimed seen result (Obj.entries u) := by
  unfold main at h
  cases ht : buildTable [] (Obj.values u) with
  | error e => simp [ht] at h
  | ok tbl =>
    simp only [ht] at h
    cases hc : claimVendor tbl [] [] (Obj.entries g) with
    | error e => simp [hc] at h
    | ok x =>
      obtain ⟨result, seen⟩ := x
      simp only [hc, Except.ok.injEq] at h
      exact ⟨tbl, result, seen, rfl, hc, h.symm⟩

/-- What the second loop reads from the table for a Source-A sequence: a
non-empty Source-B sequence with that stripped form, or, for the name of an
inherited member, that member. -/
theorem table_read {u tbl : Obj String} (ht : buildTable [] (Obj.values u) = .ok tbl)
    {s : String} (htr : truthy (tbl.get s) = true) :
    (∃ v, tbl.get s = some (.str v) ∧ v ≠ "" ∧ v ∈ Obj.values u
        ∧ stripJoinersAndSelectors v = .ok s ∧ s ∉ protoNames)
      ∨ (tbl.get s = some (.inherited s) ∧ s ∈ protoNames) := by
  rcases truthy_get_iff.1 htr with ⟨w, hw, hne⟩ | ⟨hnone, hp⟩
  · left
    rcases buildTable_sound ht hw with h1 | ⟨h1, h2⟩
    · simp [Obj.getOwn] at h1
    · exact ⟨w, Obj.get_eq_str_iff.2 hw, hne, h1, h2,
        buildTable_not_proto ht (by simp [Obj.getOwn]) w h1 s h2⟩
  · exact Or.inr ⟨Obj.get_eq_inherited_iff.2 ⟨hnone, hp, rfl⟩, hp⟩

theorem seen_iff_claimedBy {g u tbl : Obj String} {result : Obj Val} {seen : Obj Unit}
    (ht : buildTable [] (Obj.values u) = .ok tbl)
    (hc : claimVendor tbl [] [] (Obj.entries g) = .ok (result, seen))
    {c : String} (hcu : c ∈ Obj.values u) : seen.has c = true ↔ claimedBy g c := by
  rw [claimVendor_has hc c]
  constructor
  · rintro (h | ⟨p, hp, hpc⟩)
    · exfalso
      simp only [Obj.has, Obj.getOwn, Option.isSome_none, Bool.false_or,
        decide_eq_true_eq] at h
      exact buildTable_value_not_proto ht hcu h
    · have htr := claimVendor_truthy hc p hp
      rcases table_read ht htr with ⟨v, hv, hne, _, hs, _⟩ | ⟨hv, hpn⟩
      · rw [hv] at hpc
        simp only [toStr] at hpc
        subst hpc
        exact Or.inl ⟨hne, p, Obj.mem_entries.1 hp, hs⟩
      · rw [hv] at hpc
        simp only [toStr] at hpc
        exact Or.inr ⟨p, Obj.mem_entries.1 hp, hpn, hpc.symm⟩
  · rintro (⟨hne, p, hp, hs⟩ | ⟨p, hp, hpn, hpc⟩)
    · refine Or.inr ⟨p, Obj.mem_entries.2 hp, ?_⟩
      rw [Obj.get_eq_str_iff.2 (buildTable_complete ht hcu hne hs)]
      rfl
    · refine Or.inr ⟨p, Obj.mem_entries.2 hp, ?_⟩
      have htr := claimVendor_truthy hc p (Obj.mem_entries.2 hp)
      rcases table_read ht htr with ⟨v, _, _, _, _, hnp⟩ | ⟨hv, _⟩
      · exact absurd hpn hnp
      · rw [hv, hpc]
        rfl


theorem main_get_vendor {g u : Obj String} {r : Obj Val} (hA : g.keys.Nodup)
    (hB : u.keys.Nodup) (h : main g u = .ok r) {n s : String} (hmem : (n, s) ∈ g)
    (hn : n ≠ "__proto__") :
    ∃ tbl f, buildTable [] (Obj.values u) = .ok tbl ∧ tbl.get s = some f
      ∧ truthy (tbl.get s) = true
      ∧ ((∀ c, (n, c) ∈ u → claimedBy g c) → r.getOwn n = some f)
      ∧ (∀ c, (n, c) ∈ u → ¬ claimedBy g c → r.getOwn n = some (.str c)) := by
  obtain ⟨tbl, result, seen, ht, hc, rfl⟩ := main_ok h
  have hme := Obj.mem_entries.2 hmem
  have htr := claimVendor_truthy hc _ hme
  simp only at htr
  cases hf : tbl.get s with
  | none => simp [hf, truthy] at htr
  | some f =>
    refine ⟨tbl, f, ht, hf, htr, ?_, ?_⟩
    · intro hall
      rw [addUnclaimed_getOwn_other, claimVendor_getOwn hc (Obj.nodup_entries hA) hme hn, hf]
      intro c hc2
      have hcu : (n, c) ∈ u := Obj.mem_entries.1 hc2
      exact (seen_iff_claimedBy ht hc (Obj.mem_values.2 ⟨n, hcu⟩)).2 (hall c hcu)
    · intro c hcu hnot
      apply addUnclaimed_getOwn (Obj.nodup_entries hB) (Obj.mem_entries.2 hcu) _ hn
      cases hh : seen.has c with
      | false => rfl
      | true => exact absurd ((seen_iff_claimedBy ht hc (Obj.mem_values.2 ⟨n, hcu⟩)).1 hh) hnot

/-! ## The claims on `main` -/

/-- C1 (amended): when `main` succeeds on two objects (distinct keys each), every
Source-A entry `(name, bareSeq)` whose sequence is not the name of a member
inherited from `Object.prototype` (and whose name is not `__proto__`, a name
that no object built by assignments holds) has a Source-B sequence `v` whose
stripped form is `bareSeq`; the final mapping maps `name` to `v` when every
Source-B entry called `name` has a claimed sequence (in particular when there
is none), and to the sequence of the Source-B entry called `name` when that
sequence is not claimed. -/
theorem main_vendor_entry (githubData unicodeData : Obj String) (result : Obj Val)
    (hA : githubData.keys.Nodup) (hB : unicodeData.keys.Nodup)
    (h : main githubData unicodeData = .ok result)
    (name bareSeq : String) (hmem : (name, bareSeq) ∈ githubData)
    (hname : name ≠ "__proto__") (hseq : bareSeq ∉ protoNames) :
    ∃ v, v ∈ Obj.values unicodeData ∧ stripJoinersAndSelectors v = .ok bareSeq
      ∧ ((∀ c, (name, c) ∈ unicodeData → claimedBy githubData c) →
          result.getOwn name = some (.str v))
      ∧ (∀ c, (name, c) ∈ unicodeData → ¬ claimedBy githubData c →
          result.getOwn name = some (.str c)) := by
  obtain ⟨tbl, f, ht, hf, htr, h4, h5⟩ := main_get_vendor hA hB h hmem hname
  rcases table_read ht htr with ⟨v, hv, _, hvu, hs, _⟩ | ⟨_, hp⟩
  · rw [hv] at hf
    cases hf
    exact ⟨v, hvu, hs, h4, h5⟩
  · exact absurd hp hseq

/-- C1, the example of the specification: Source-A `thumbsup -> 1f44d` and a
Source-B sequence `1f44d-fe0f`. -/
theorem main_vendor_entry_witness :
    main [("thumbsup", "1f44d")] [("thumbs_up", "1f44d-fe0f")]
        = .ok [("thumbsup", .str "1f44d-fe0f")]
      ∧ ∃ v, v ∈ Obj.values [("thumbs_up", "1f44d-fe0f")]
        ∧ stripJoinersAndSelectors v = .ok "1f44d"
        ∧ ((∀ c, ("thumbsup", c) ∈ ([("thumbs_up", "1f44d-fe0f")] : Obj String) →
              claimedBy [("thumbsup", "1f44d")] c) →
            Obj.getOwn [("thumbsup", Val.str "1f44d-fe0f")] "thumbsup" = some (.str v))
        ∧ (∀ c, ("thumbsup", c) ∈ ([("thumbs_up", "1f44d-fe0f")] : Obj String) →
              ¬ claimedBy [("thumbsup", "1f44d")] c →
            Obj.getOwn [("thumbsup", Val.str "1f44d-fe0f")] "thumbsup" = some (.str c)) :=
  ⟨by decide,
   main_vendor_entry [("thumbsup", "1f44d")] [("thumbs_up", "1f44d-fe0f")]
     [("thumbsup", .str "1f44d-fe0f")] (by decide) (by decide) (by decide)
     "thumbsup" "1f44d" (by decide) (by decide) (by decide)⟩

/-- C1 as stated fails: with Source-A `a -> 1f600` and Source-B `x -> 1f600`,
`a -> 1f601`, reconciliation succeeds and the final mapping maps `a` to
`1f601`, which is not a sequence whose stripped form is `1f600`.  And with the
Source-A entry `odd -> constructor`, reconciliation succeeds although no
Source-B sequence has that stripped form: the table lookup finds the member
`constructor` that every object inherits, and `odd` is mapped to that member,
not to a sequence. -/
theorem main_vendor_entry_counterexample :
    (main [("a", "1f600")] [("x", "1f600"), ("a", "1f601")] = .ok [("a", .str "1f601")]
      ∧ ("a", "1f600") ∈ ([("a", "1f600")] : Obj String)
      ∧ ¬ ∃ v, stripJoinersAndSelectors v = .ok "1f600"
          ∧ Obj.getOwn [("a", Val.str "1f601")] "a" = some (.str v))
    ∧ (main [("odd", "constructor")] [("grinning", "1f604")]
          = .ok [("odd", .inherited "constructor"), ("grinning", .str "1f604")]
      ∧ ("odd", "constructor") ∈ ([("odd", "constructor")] : Obj String)
      ∧ ¬ ∃ v, Obj.getOwn [("odd", Val.inherited "constructor"), ("grinning", .str "1f604")]
            "odd" = some (.str v)) := by
  refine ⟨⟨by decide, by decide, ?_⟩, by decide, by decide, ?_⟩
  · rintro ⟨v, hv, hget⟩
    have : v = "1f601" := by
      simp [Obj.getOwn] at hget
      exact hget.symm
    subst this
    revert hv
    decide
  · rintro ⟨v, hget⟩
    simp [Obj.getOwn] at hget

theorem buildTable_taken {vs : List String} {tbl t2 : Obj String} {rv w : String}
    (h : buildTable tbl vs = .ok t2) (hk : tbl.getOwn rv = some w) (hw : w ≠ "") :
    ∀ b ∈ vs, stripJoinersAndSelectors b ≠ .ok rv := by
  induction vs generalizing tbl with
  | nil => simp
  | cons v vs ih =>
    obtain ⟨rv0, hs0, hf, hrest⟩ := buildTable_cons_ok h
    have hne : rv ≠ rv0 := by
      intro e
      subst e
      rw [truthy_get_of_own hk hw] at hf
      exact Bool.noConfusion hf
    intro b hb
    rcases List.mem_cons.1 hb with rfl | hb
    · rw [hs0]
      intro e
      cases e
      exact hne rfl
    · refine ih hrest ?_ b hb
      rw [Obj.getOwn_setOwn_ne _ _ _ _ hne]
      exact hk

theorem buildTable_distinct {es : List (String × String)} {tbl t2 : Obj String}
    (h : buildTable tbl (es.map Prod.snd) = .ok t2) {n1 c1 n2 c2 : String}
    (h1 : (n1, c1) ∈ es) (h2 : (n2, c2) ∈ es) (hn : n1 ≠ n2)
    (hc1 : c1 ≠ "") (hc2 : c2 ≠ "") : c1 ≠ c2 := by
  induction es generalizing tbl with
  | nil => simp at h1
  | cons p rest ih =>
    obtain ⟨n0, c0⟩ := p
    simp only [List.map_cons] at h
    obtain ⟨rv0, hs0, _, hrest⟩ := buildTable_cons_ok h
    have key : ∀ n c, (n, c) ∈ rest → c0 ≠ "" → c ≠ c0 := by
      intro n c hc hne e
      subst e
      exact buildTable_taken hrest (Obj.getOwn_setOwn_self _ _ _) hne c
        (List.mem_map.2 ⟨(n, c), hc, rfl⟩) hs0
    rcases List.mem_cons.1 h1 with e1 | m1
    · cases e1
      rcases List.mem_cons.1 h2 with e2 | m2
      · cases e2
        exact absurd rfl hn
      · exact fun e => key n2 c2 m2 hc1 e.symm
    · rcases List.mem_cons.1 h2 with e2 | m2
      · cases e2
        exact key n1 c1 m1 hc2
      · exact ih hrest m1 m2

/-- C2 (amended): when `main` succeeds on two objects (distinct keys each) and no
Source-B sequence is empty, two Source-A names whose Source-A sequences differ
are mapped to different values by the final mapping.  (Names with the same
Source-A sequence are aliases and are both accepted.  The names are other than
`__proto__`, a name that no object built by assignments holds.) -/
theorem main_distinct_sequences (githubData unicodeData : Obj String) (result : Obj Val)
    (hA : githubData.keys.Nodup) (hB : unicodeData.keys.Nodup)
    (h : main githubData unicodeData = .ok result)
    (hne : ∀ p ∈ unicodeData, p.2 ≠ "")
    (n1 s1 n2 s2 : String) (h1 : (n1, s1) ∈ githubData) (h2 : (n2, s2) ∈ githubData)
    (hs : s1 ≠ s2) (hp1 : n1 ≠ "__proto__") (hp2 : n2 ≠ "__proto__") :
    ∃ f1 f2, result.getOwn n1 = some f1 ∧ result.getOwn n2 = some f2 ∧ f1 ≠ f2 := by
  have hn : n1 ≠ n2 := by
    intro e
    subst e
    have e1 := Obj.getOwn_of_mem hA h1
    rw [Obj.getOwn_of_mem hA h2] at e1
    cases e1
    exact hs rfl
  obtain ⟨tbl, f1, ht, hf1, htr1, ha1, hb1⟩ := main_get_vendor hA hB h h1 hp1
  obtain ⟨tbl2, f2, ht2, hf2, htr2, ha2, hb2⟩ := main_get_vendor hA hB h h2 hp2
  rw [ht] at ht2
  cases ht2
  have hcl : ∀ {n s f c}, (n, s) ∈ githubData → tbl.get s = some f →
      truthy (tbl.get s) = true → f = .str c → claimedBy githubData c := by
    intro n s f c hmem hf htr hfc
    rcases table_read ht htr with ⟨v, hv, hvne, _, hst, _⟩ | ⟨hv, _⟩
    · rw [hv] at hf
      cases hf
      cases hfc
      exact Or.inl ⟨hvne, (n, s), hmem, hst⟩
    · rw [hv] at hf
      cases hf
      cases hfc
  have hf12 : f1 ≠ f2 := by
    intro e
    subst e
    rcases table_read ht htr1 with ⟨v1, hv1, _, _, hst1, _⟩ | ⟨hv1, _⟩
    · rcases table_read ht htr2 with ⟨v2, hv2, _, _, hst2, _⟩ | ⟨hv2, _⟩
      · rw [hv1] at hf1
        rw [hv2] at hf2
        cases hf1
        cases hf2
        rw [hst1] at hst2
        cases hst2
        exact hs rfl
      · rw [hv1] at hf1
        rw [hv2] at hf2
        cases hf1
        cases hf2
    · rcases table_read ht htr2 with ⟨v2, hv2, _, _, hst2, _⟩ | ⟨hv2, _⟩
      · rw [hv1] at hf1
        rw [hv2] at hf2
        cases hf1
        cases hf2
      · rw [hv1] at hf1
        rw [hv2] at hf2
        cases hf1
        cases hf2
        exact hs rfl
  by_cases o1 : ∀ c, (n1, c) ∈ unicodeData → claimedBy githubData c
  · by_cases o2 : ∀ c, (n2, c) ∈ unicodeData → claimedBy githubData c
    · exact ⟨f1, f2, ha1 o1, ha2 o2, hf12⟩
    · push_neg at o2
      obtain ⟨c2, hc2, hun2⟩ := o2
      refine ⟨f1, .str c2, ha1 o1, hb2 c2 hc2 hun2, ?_⟩
      intro e
      exact hun2 (hcl h1 hf1 htr1 e)
  · push_neg at o1
    obtain ⟨c1, hc1, hun1⟩ := o1
    by_cases o2 : ∀ c, (n2, c) ∈ unicodeData → claimedBy githubData c
    · refine ⟨.str c1, f2, hb1 c1 hc1 hun1, ha2 o2, ?_⟩
      intro e
      exact hun1 (hcl h2 hf2 htr2 e.symm)
    · push_neg at o2
      obtain ⟨c2, hc2, hun2⟩ := o2
      refine ⟨.str c1, .str c2, hb1 c1 hc1 hun1, hb2 c2 hc2 hun2, ?_⟩
      intro e
      cases e
      exact buildTable_distinct ht (Obj.mem_entries.2 hc1) (Obj.mem_entries.2 hc2) hn
        (hne _ hc1) (hne _ hc2) rfl

/-- C2, an instance: two vendor names with different sequences. -/
theorem main_distinct_sequences_witness :
    main [("smile", "1f604"), ("heart", "2764")]
        [("grinning", "1f604"), ("red_heart", "2764-fe0f")]
        = .ok [("smile", .str "1f604"), ("heart", .str "2764-fe0f")]
      ∧ ∃ f1 f2,
        Obj.getOwn [("smile", Val.str "1f604"), ("heart", .str "2764-fe0f")] "smile" = some f1
        ∧ Obj.getOwn [("smile", Val.str "1f604"), ("heart", .str "2764-fe0f")] "heart"
            = some f2
        ∧ f1 ≠ f2 :=
  ⟨by decide,
   main_distinct_sequences [("smile", "1f604"), ("heart", "2764")]
     [("grinning", "1f604"), ("red_heart", "2764-fe0f")]
     [("smile", .str "1f604"), ("heart", .str "2764-fe0f")] (by decide) (by decide)
     (by decide) (by decide) "smile" "1f604" "heart" "2764" (by decide) (by decide)
     (by decide) (by decide) (by decide)⟩

/-- C2 as stated fails: the distinct Source-A names `a` and `b`, both with the
sequence `1f600`, are accepted and mapped to the same sequence.  (And with two
Source-B entries `n1` and `n2` whose sequence is empty, the Source-A names `n1`
and `n2`, of different sequences, both end mapped to the empty sequence.) -/
theorem main_distinct_sequences_counterexample :
    (main [("a", "1f600"), ("b", "1f600")] [("x", "1f600")]
        = .ok [("a", .str "1f600"), ("b", .str "1f600")]
      ∧ ("a" : String) ≠ "b"
      ∧ Obj.getOwn [("a", Val.str "1f600"), ("b", .str "1f600")] "a"
        = Obj.getOwn [("a", Val.str "1f600"), ("b", .str "1f600")] "b")
    ∧ main [("n1", "1f600"), ("n2", "1f601")]
        [("n1", ""), ("n2", ""), ("x", "1f600"), ("y", "1f601")]
      = .ok [("n1", .str ""), ("n2", .str "")] := by
  decide

/-- C3 (amended): when the table of stripped sequences can be built and some
Source-A entry carries a sequence that is neither the stripped form of a
Source-B sequence nor the name of a member inherited from `Object.prototype`,
`main` produces no mapping: it fails with the unmatched-vendor-entry error,
which names an entry of Source-A. -/
theorem main_unmatched_vendor (githubData unicodeData githubToUnicode : Obj String)
    (ht : buildTable [] (Obj.values unicodeData) = .ok githubToUnicode)
    (name cps : String) (hmem : (name, cps) ∈ githubData)
    (hno : ∀ v ∈ Obj.values unicodeData, stripJoinersAndSelectors v ≠ .ok cps)
    (hproto : cps ∉ protoNames) :
    ∃ n s, (n, s) ∈ githubData
      ∧ main githubData unicodeData = .error (.unmatchedVendor n s) := by
  unfold main
  simp only [ht]
  cases hc : claimVendor githubToUnicode [] [] (Obj.entries githubData) with
  | error e =>
    obtain ⟨p, hp, he⟩ := claimVendor_error hc
    exact ⟨p.1, p.2, Obj.mem_entries.1 hp, by rw [he]⟩
  | ok x =>
    exfalso
    have htr := claimVendor_truthy hc _ (Obj.mem_entries.2 hmem)
    rcases table_read ht htr with ⟨v, _, _, hvu, hs, _⟩ | ⟨_, hp⟩
    · exact hno v hvu hs
    · exact hproto hp

/-- C3, an instance: the vendor sequence `1f9ff` has no Source-B equivalent. -/
theorem main_unmatched_vendor_witness :
    buildTable [] (Obj.values [("grinning", "1f604")]) = .ok [("1f604", "1f604")]
      ∧ ∃ n s, (n, s) ∈ ([("smile", "1f604"), ("octocat", "1f9ff")] : Obj String)
        ∧ main [("smile", "1f604"), ("octocat", "1f9ff")] [("grinning", "1f604")]
          = .error (.unmatchedVendor n s) :=
  ⟨by decide,
   main_unmatched_vendor [("smile", "1f604"), ("octocat", "1f9ff")]
     [("grinning", "1f604")] [("1f604", "1f604")] (by decide) "octocat" "1f9ff"
     (by decide) (by decide) (by decide)⟩

/-- C3 as stated fails: the table is built, the Source-A entry `odd` carries
`constructor`, which is the stripped form of no Source-B sequence, and yet
`main` succeeds: the read `githubToUnicode["constructor"]` finds the member
that every object inherits, which is truthy, so nothing is thrown and `odd` is
given that member as its value. -/
theorem main_unmatched_vendor_counterexample :
    buildTable [] (Obj.values [("grinning", "1f604")]) = .ok [("1f604", "1f604")]
      ∧ ("odd", "constructor") ∈ ([("smile", "1f604"), ("odd", "constructor")] : Obj String)
      ∧ (∀ v ∈ Obj.values [("grinning", "1f604")],
          stripJoinersAndSelectors v ≠ .ok "constructor")
      ∧ main [("smile", "1f604"), ("odd", "constructor")] [("grinning", "1f604")]
          = .ok [("smile", .str "1f604"), ("odd", .inherited "constructor")] := by
  decide

/-- C4: when `main` succeeds, every Source-B entry whose sequence is not claimed
by a Source-A entry appears in the final mapping under its own name.  (The name
is other than `__proto__`, a name that no object built by assignments holds.) -/
theorem main_unclaimed_entry (githubData unicodeData : Obj String) (result : Obj Val)
    (hB : unicodeData.keys.Nodup)
    (h : main githubData unicodeData = .ok result)
    (name cps : String) (hmem : (name, cps) ∈ unicodeData)
    (hun : ¬ claimedBy githubData cps) (hname : name ≠ "__proto__") :
    result.getOwn name = some (.str cps) := by
  obtain ⟨tbl, res, seen, ht, hc, rfl⟩ := main_ok h
  apply addUnclaimed_getOwn (Obj.nodup_entries hB) (Obj.mem_entries.2 hmem) _ hname
  cases hh : seen.has cps with
  | false => rfl
  | true => exact absurd ((seen_iff_claimedBy ht hc (Obj.mem_values.2 ⟨name, hmem⟩)).1 hh) hun

/-- C4, an instance: `red_heart` has no vendor name and is kept. -/
theorem main_unclaimed_entry_witness :
    main [("smile", "1f604")] [("grinning", "1f604"), ("red_heart", "2764-fe0f")]
        = .ok [("smile", .str "1f604"), ("red_heart", .str "2764-fe0f")]
      ∧ Obj.getOwn [("smile", Val.str "1f604"), ("red_heart", .str "2764-fe0f")] "red_heart"
        = some (.str "2764-fe0f") :=
  ⟨by decide,
   main_unclaimed_entry [("smile", "1f604")]
     [("grinning", "1f604"), ("red_heart", "2764-fe0f")]
     [("smile", .str "1f604"), ("red_heart", .str "2764-fe0f")] (by decide) (by decide)
     "red_heart" "2764-fe0f" (by decide) (by decide) (by decide)⟩

/-- C5 (amended): when `main` succeeds, every value of the final mapping is one
of the sequences of the Source-B mapping, unchanged, or, for a Source-A entry
whose sequence is the name of a member inherited from `Object.prototype`, that
member; and every key is a Source-A name or a Source-B name. -/
theorem main_values_keys (githubData unicodeData : Obj String) (result : Obj Val)
    (h : main githubData unicodeData = .ok result)
    (k : String) (v : Val) (hmem : (k, v) ∈ result) :
    ((∃ s, v = .str s ∧ s ∈ Obj.values unicodeData)
        ∨ (∃ s, (k, s) ∈ githubData ∧ s ∈ protoNames ∧ v = .inherited s))
      ∧ (k ∈ githubData.keys ∨ k ∈ unicodeData.keys) := by
  obtain ⟨tbl, res, seen, ht, hc, rfl⟩ := main_ok h
  rcases addUnclaimed_mem hmem with h1 | ⟨c, h1, h2, _⟩
  · rcases claimVendor_mem hc h1 with h2 | ⟨p, hp, hp1, hp2⟩
    · simp at h2
    · simp only at hp1 hp2
      have hpg : (k, p.2) ∈ githubData := by
        rw [← hp1]
        exact Obj.mem_entries.1 hp
      have htr := claimVendor_truthy hc p hp
      constructor
      · rcases table_read ht htr with ⟨w, hw, _, hwu, _, _⟩ | ⟨hw, hpn⟩
        · rw [hw] at hp2
          cases hp2
          exact Or.inl ⟨w, rfl, hwu⟩
        · rw [hw] at hp2
          cases hp2
          exact Or.inr ⟨p.2, hpg, hpn, rfl⟩
      · left
        exact List.mem_map.2 ⟨(k, p.2), hpg, rfl⟩
  · simp only at h1 h2
    have hu := Obj.mem_entries.1 h2
    exact ⟨Or.inl ⟨c, h1, Obj.mem_values.2 ⟨k, hu⟩⟩,
      Or.inr (List.mem_map.2 ⟨(k, c), hu, rfl⟩)⟩

/-- C5, an instance: the value kept for `heart` is the Source-B sequence
`2764-fe0f`, not the vendor sequence `2764`. -/
theorem main_values_keys_witness :
    main [("heart", "2764")] [("red_heart", "2764-fe0f")]
        = .ok [("heart", .str "2764-fe0f")]
      ∧ (((∃ s, Val.str "2764-fe0f" = .str s ∧ s ∈ Obj.values [("red_heart", "2764-fe0f")])
          ∨ (∃ s, ("heart", s) ∈ ([("heart", "2764")] : Obj String) ∧ s ∈ protoNames
              ∧ Val.str "2764-fe0f" = .inherited s))
        ∧ ("heart" ∈ Obj.keys [("heart", "2764")]
          ∨ "heart" ∈ Obj.keys [("red_heart", "2764-fe0f")])) :=
  ⟨by decide,
   main_values_keys [("heart", "2764")] [("red_heart", "2764-fe0f")]
     [("heart", .str "2764-fe0f")] (by decide) "heart" (.str "2764-fe0f") (by decide)⟩

/-- C5 as stated fails: with the Source-A entry `odd -> __proto__`, `main`
succeeds and the value of `odd` in the final mapping is what the table read
`githubToUnicode["__proto__"]` gives, the prototype object that every object
inherits (written out as an empty object); it is not a sequence of the Source-B
mapping.  Likewise with `odd -> constructor`, whose value is the inherited
function. -/
theorem main_values_keys_counterexample :
    (main [("smile", "1f604"), ("odd", "__proto__")] [("grinning", "1f604")]
        = .ok [("smile", .str "1f604"), ("odd", .inherited "__proto__")]
      ∧ ("odd", Val.inherited "__proto__")
          ∈ ([("smile", .str "1f604"), ("odd", .inherited "__proto__")] : Obj Val)
      ∧ ¬ ∃ s, Val.inherited "__proto__" = .str s
          ∧ s ∈ Obj.values [("grinning", "1f604")])
    ∧ (main [("smile", "1f604"), ("odd", "constructor")] [("grinning", "1f604")]
        = .ok [("smile", .str "1f604"), ("odd", .inherited "constructor")]
      ∧ ("odd", Val.inherited "constructor")
          ∈ ([("smile", .str "1f604"), ("odd", .inherited "constructor")] : Obj Val)
      ∧ ¬ ∃ s, Val.inherited "constructor" = .str s
          ∧ s ∈ Obj.values [("grinning", "1f604")]) := by
  refine ⟨⟨by decide, by decide, ?_⟩, by decide, by decide, ?_⟩
  · rintro ⟨s, hs, _⟩
    cases hs
  · rintro ⟨s, hs, _⟩
    cases hs

/-- C6 (amended): if two different non-empty sequences among the values of the
Source-B mapping have the same stripped form, building the table fails, so
`main` fails whatever the Source-A mapping is and no mapping is produced; the
error is the ambiguous-codepoint error, or the leftover-joiner error of a
Source-B sequence that cannot be stripped. -/
theorem main_ambiguous_codepoint (unicodeData : Obj String) (v1 v2 s : String)
    (h1 : v1 ∈ Obj.values unicodeData) (h2 : v2 ∈ Obj.values unicodeData)
    (hne : v1 ≠ v2) (hn1 : v1 ≠ "") (hn2 : v2 ≠ "")
    (hs1 : stripJoinersAndSelectors v1 = .ok s)
    (hs2 : stripJoinersAndSelectors v2 = .ok s) :
    ∃ e, buildTable [] (Obj.values unicodeData) = .error e
      ∧ (∀ githubData, main githubData unicodeData = .error e)
      ∧ ((∃ old v, e = .ambiguousCodepoint old v ∧ v ∈ Obj.values unicodeData)
        ∨ (∃ rv v, e = .leftoverJoiner rv v ∧ v ∈ Obj.values unicodeData
            ∧ stripJoinersAndSelectors v = .error e)) := by
  cases ht : buildTable [] (Obj.values unicodeData) with
  | ok tbl =>
    exfalso
    have e1 := buildTable_complete ht h1 hn1 hs1
    rw [buildTable_complete ht h2 hn2 hs2] at e1
    cases e1
    exact hne rfl
  | error e =>
    refine ⟨e, rfl, ?_, ?_⟩
    · intro g
      unfold main
      simp only [ht]
    · rcases buildTable_error ht with ⟨rv, v, he, hv, hs⟩ | ⟨old, v, he, hv⟩
      · exact Or.inr ⟨rv, v, he, hv, hs⟩
      · exact Or.inl ⟨old, v, he, hv⟩

/-- C6, an instance: `1f600` and `1f600-fe0f` have the same stripped form. -/
theorem main_ambiguous_codepoint_witness :
    ∃ e, buildTable [] (Obj.values [("a", "1f600"), ("b", "1f600-fe0f")]) = .error e
      ∧ (∀ githubData, main githubData [("a", "1f600"), ("b", "1f600-fe0f")] = .error e)
      ∧ ((∃ old v, e = .ambiguousCodepoint old v
            ∧ v ∈ Obj.values [("a", "1f600"), ("b", "1f600-fe0f")])
        ∨ (∃ rv v, e = .leftoverJoiner rv v
            ∧ v ∈ Obj.values [("a", "1f600"), ("b", "1f600-fe0f")]
            ∧ stripJoinersAndSelectors v = .error e)) :=
  main_ambiguous_codepoint [("a", "1f600"), ("b", "1f600-fe0f")] "1f600" "1f600-fe0f"
    "1f600" (by decide) (by decide) (by decide) (by decide) (by decide) (by decide)
    (by decide)

/-- C6 as stated fails: the Source-B values `1f600` and `1f600-fe0f` have the
same stripped form, yet `main` fails with the leftover-joiner error raised by
the entry `z -> fe0f`, not with the ambiguous-codepoint error.  (And when one of
the two colliding values is the empty string, as with `""` and `-fe0f`, the
table is built and `main` succeeds.) -/
theorem main_ambiguous_codepoint_counterexample :
    (stripJoinersAndSelectors "1f600" = .ok "1f600"
      ∧ stripJoinersAndSelectors "1f600-fe0f" = .ok "1f600"
      ∧ main [] [("z", "fe0f"), ("a", "1f600"), ("b", "1f600-fe0f")]
        = .error (.leftoverJoiner "fe0f" "fe0f"))
    ∧ (stripJoinersAndSelectors "" = .ok ""
      ∧ stripJoinersAndSelectors "-fe0f" = .ok ""
      ∧ main [] [("a", ""), ("b", "-fe0f")] = .ok [("a", .str ""), ("b", .str "-fe0f")]) := by
  decide


/-! ## Lemmas on hexadecimal numerals -/

theorem intercalate_cons_dashed (g : List Char) (rest : List (List Char)) :
    List.intercalate ['-'] (g :: rest) = g ++ dashed rest := by
  induction rest generalizing g with
  | nil => simp [List.intercalate, dashed]
  | cons h t ih =>
    have := ih h
    simp only [List.intercalate, List.intersperse_cons_cons, List.flatten_cons,
      List.singleton_append] at this ⊢
    rw [this]
    simp [dashed]

theorem hexDigitValue_digitChar (k : Nat) (hk : k < 16) :
    hexDigitValue (Nat.digitChar k) = some k := by
  interval_cases k <;> decide

theorem digitChar_eq_zero (k : Nat) (hk : k < 16) (h : Nat.digitChar k = '0') : k = 0 := by
  interval_cases k <;> first | rfl | (exact absurd h (by decide))

theorem hexValue_append_single (l : List Char) (c : Char) :
    hexValue (l ++ [c]) = hexStep (hexValue l) c := by
  simp [hexValue, List.foldl_append]

theorem toDigitsCore_hex : ∀ (f n : Nat) (ds : List Char), n < f →
    ∃ l, Nat.toDigitsCore 16 f n ds = l ++ ds ∧ l ≠ [] ∧ hexValue l = some n
      ∧ (l.head? = some '0' → l = ['0'])
  | 0, n, _, h => absurd h (Nat.not_lt_zero n)
  | f + 1, n, ds, h => by
    simp only [Nat.toDigitsCore]
    by_cases hq : n / 16 = 0
    · rw [if_pos hq]
      have hn : n < 16 := by omega
      have hmod : n % 16 = n := Nat.mod_eq_of_lt hn
      refine ⟨[Nat.digitChar (n % 16)], rfl, by simp, ?_, ?_⟩
      · rw [hmod]
        simp [hexValue, hexStep, hexDigitValue_digitChar n hn]
      · intro hh
        simp only [List.head?_cons, Option.some.injEq] at hh
        rw [hh]
    · rw [if_neg hq]
      obtain ⟨l, hl, hne, hv, hz⟩ :=
        toDigitsCore_hex f (n / 16) (Nat.digitChar (n % 16) :: ds) (by omega)
      refine ⟨l ++ [Nat.digitChar (n % 16)], by simp [hl], by simp, ?_, ?_⟩
      · rw [hexValue_append_single, hv]
        simp only [hexStep, hexDigitValue_digitChar (n % 16) (Nat.mod_lt _ (by omega))]
        congr 1
        omega
      · intro hh
        exfalso
        have hhead : l.head? = some '0' := by
          cases l with
          | nil => exact absurd rfl hne
          | cons c l => simpa using hh
        rw [hz hhead] at hv
        simp [hexValue, hexStep, hexDigitValue] at hv
        exact hq hv.symm

theorem toDigits_isHexNumeralOf (n : Nat) : isHexNumeralOf (Nat.toDigits 16 n) n := by
  obtain ⟨l, hl, hne, hv, hz⟩ := toDigitsCore_hex (n + 1) n [] (Nat.lt_succ_self n)
  unfold Nat.toDigits
  rw [hl, List.append_nil]
  exact ⟨hne, hv, hz⟩

theorem hexValue_chars {g : List Char} {n : Nat} (h : hexValue g = some n) :
    ∀ c ∈ g, (hexDigitValue c).isSome = true := by
  have none_stays : ∀ l : List Char, l.foldl hexStep none = none := by
    intro l
    induction l with
    | nil => rfl
    | cons c l ih => simpa [List.foldl_cons, hexStep] using ih
  have gen : ∀ (l : List Char) (a : Nat), l.foldl hexStep (some a) = some n →
      ∀ c ∈ l, (hexDigitValue c).isSome = true := by
    intro l
    induction l with
    | nil => simp
    | cons c l ih =>
      intro a ha x hx
      simp only [List.foldl_cons] at ha
      cases hc : hexDigitValue c with
      | none =>
        simp only [hexStep, hc] at ha
        rw [none_stays] at ha
        simp at ha
      | some v =>
        simp only [hexStep, hc] at ha
        rcases List.mem_cons.1 hx with rfl | hx
        · simp [hc]
        · exact ih _ ha x hx
  exact gen g 0 h

theorem isHexNumeralOf_dashFree {g : List Char} {n : Nat} (h : isHexNumeralOf g n) :
    '-' ∉ g := by
  intro hmem
  have := hexValue_chars h.2.1 '-' hmem
  revert this
  decide

theorem mem_dashed {c : Char} {t : List (List Char)} (h : c ∈ dashed t) :
    c = '-' ∨ ∃ g ∈ t, c ∈ g := by
  induction t with
  | nil => simp [dashed] at h
  | cons g rest ih =>
    simp only [dashed, List.mem_cons, List.mem_append] at h
    rcases h with h | h | h
    · exact Or.inl h
    · exact Or.inr ⟨g, List.mem_cons_self _ _, h⟩
    · rcases ih h with h | ⟨g2, hg2, hc⟩
      · exact Or.inl h
      · exact Or.inr ⟨g2, List.mem_cons_of_mem _ hg2, hc⟩

theorem stringToCodepoints_isSequence (s : String) :
    isSequence (stringToCodepoints s) = true := by
  simp only [isSequence, stringToCodepoints, List.all_eq_true, Bool.or_eq_true,
    beq_iff_eq]
  intro c hc
  have hdig : ∀ g ∈ s.data.map (fun (x : Char) => Nat.toDigits 16 x.toNat), ∀ y ∈ g,
      (hexDigitValue y).isSome = true := by
    intro g hg y hy
    obtain ⟨x, _, rfl⟩ := List.mem_map.1 hg
    exact hexValue_chars (toDigits_isHexNumeralOf x.toNat).2.1 y hy
  cases hl : s.data.map (fun (x : Char) => Nat.toDigits 16 x.toNat) with
  | nil =>
    rw [hl] at hc
    simp [List.intercalate] at hc
  | cons g rest =>
    rw [hl, intercalate_cons_dashed, List.mem_append] at hc
    rw [hl] at hdig
    rcases hc with hc | hc
    · exact Or.inl (hdig g (List.mem_cons_self _ _) c hc)
    · rcases mem_dashed hc with h | ⟨g2, hg2, hc2⟩
      · exact Or.inr h
      · exact Or.inl (hdig g2 (List.mem_cons_of_mem _ hg2) c hc2)

theorem protoNames_not_isSequence : ∀ k ∈ protoNames, isSequence k = false := by
  decide

/-- No codepoint sequence is the name of a member of `Object.prototype`. -/
theorem stringToCodepoints_not_proto (s : String) : stringToCodepoints s ∉ protoNames := by
  intro h
  have := protoNames_not_isSequence _ h
  rw [stringToCodepoints_isSequence] at this
  exact Bool.noConfusion this

theorem get_stringToCodepoints (o : Obj String) (s : String) :
    o.get (stringToCodepoints s) = (o.getOwn (stringToCodepoints s)).map Val.str :=
  Obj.get_of_not_proto (stringToCodepoints_not_proto s)


/-! ## Lemmas on the loader -/

theorem insertEmoji_ok {result r : Obj String} {e d : String}
    (h : insertEmoji result e d = (r, none)) :
    ∃ name, resolveName e d = .ok name ∧ truthy (result.get name) = false
      ∧ r = result.setOwn name (stringToCodepoints e) := by
  unfold insertEmoji at h
  cases hr : resolveName e d with
  | error err => simp [hr] at h
  | ok name =>
    simp only [hr] at h
    by_cases ht : truthy (result.get name) = true
    · simp [ht] at h
    · have hf : truthy (result.get name) = false := by simpa using ht
      simp only [ht, Bool.false_eq_true, if_false, Prod.mk.injEq, and_true] at h
      rw [Obj.set_of_falsy _ hf] at h
      exact ⟨name, rfl, hf, h.symm⟩

theorem insertEmoji_persist (result : Obj String) (e d : String) {k w : String}
    (hk : result.getOwn k = some w) (hw : w ≠ "") :
    (insertEmoji result e d).1.getOwn k = some w := by
  unfold insertEmoji
  cases hr : resolveName e d with
  | error err => simpa using hk
  | ok name =>
    simp only
    by_cases ht : truthy (result.get name) = true
    · simpa [ht] using hk
    · simp only [ht, Bool.false_eq_true, if_false]
      have hne : k ≠ name := by
        intro e2
        subst e2
        exact ht (truthy_get_of_own hk hw)
      rw [Obj.getOwn_set_ne _ _ _ _ hne]
      exact hk

theorem insertAll_append (result : Obj String) (xs ys : List Emoji) :
    insertAll result (xs ++ ys)
      = match insertAll result xs with
        | (r, some e) => (r, some e)
        | (r, none) => insertAll r ys := by
  induction xs generalizing result with
  | nil => simp [insertAll]
  | cons x xs ih =>
    simp only [List.cons_append, insertAll]
    rcases hx : insertEmoji result x.emoji x.description with ⟨r, _ | e⟩
    · simp only
      exact ih r
    · simp only

mutual
theorem processEmoji_eq_insertAll : ∀ (x : Emoji) (result : Obj String),
    processEmoji result x = insertAll result x.records
  | .mk e d vs, result => by
    simp only [processEmoji, Emoji.records, insertAll, Emoji.emoji, Emoji.description]
    rcases hx : insertEmoji result e d with ⟨r, _ | err⟩
    · simp only
      exact forEachEmoji_eq_insertAll vs r
    · simp only
theorem forEachEmoji_eq_insertAll : ∀ (xs : List Emoji) (result : Obj String),
    forEachEmoji result xs = insertAll result (recordsOfList xs)
  | [], result => by simp [forEachEmoji, recordsOfList, insertAll]
  | x :: xs, result => by
    simp only [forEachEmoji, recordsOfList, insertAll_append]
    rw [processEmoji_eq_insertAll x result]
    rcases hx : insertAll result x.records with ⟨r, _ | err⟩
    · simp only
      exact forEachEmoji_eq_insertAll xs r
    · simp only
end

theorem insertAll_persist (xs : List Emoji) (result : Obj String) {k w : String}
    (hk : result.getOwn k = some w) (hw : w ≠ "") :
    (insertAll result xs).1.getOwn k = some w := by
  induction xs generalizing result with
  | nil => exact hk
  | cons x xs ih =>
    have hp := insertEmoji_persist result x.emoji x.description hk hw
    simp only [insertAll]
    rcases hx : insertEmoji result x.emoji x.description with ⟨r, _ | err⟩
    · rw [hx] at hp
      exact ih r hp
    · rw [hx] at hp
      exact hp

theorem insertAll_cons_ok {x : Emoji} {xs : List Emoji} {result r : Obj String}
    (h : insertAll result (x :: xs) = (r, none)) :
    ∃ r1, insertEmoji result x.emoji x.description = (r1, none)
      ∧ insertAll r1 xs = (r, none) := by
  simp only [insertAll] at h
  rcases hx : insertEmoji result x.emoji x.description with ⟨r1, _ | err⟩
  · rw [hx] at h
    exact ⟨r1, rfl, h⟩
  · rw [hx] at h
    simp at h

theorem insertAll_ok_mem {xs : List Emoji} {result r : Obj String}
    (h : insertAll result xs = (r, none)) {x : Emoji} (hx : x ∈ xs)
    (hne : stringToCodepoints x.emoji ≠ "") :
    ∃ name, resolveName x.emoji x.description = .ok name
      ∧ r.getOwn name = some (stringToCodepoints x.emoji) := by
  induction xs generalizing result with
  | nil => simp at hx
  | cons y ys ih =>
    obtain ⟨r1, h1, h2⟩ := insertAll_cons_ok h
    rcases List.mem_cons.1 hx with rfl | hx
    · obtain ⟨name, hn, _, hr1⟩ := insertEmoji_ok h1
      refine ⟨name, hn, ?_⟩
      have hp := insertAll_persist ys r1 (k := name)
        (by rw [hr1]; exact Obj.getOwn_setOwn_self _ _ _) hne
      rw [h2] at hp
      exact hp
    · exact ih h2 hx

theorem insertAll_ok_length {xs : List Emoji} {result r : Obj String}
    (h : insertAll result xs = (r, none))
    (hv : ∀ p ∈ result, p.2 ≠ "") (hnd : result.keys.Nodup)
    (hne : ∀ x ∈ xs, stringToCodepoints x.emoji ≠ "") :
    r.length = result.length + xs.length ∧ r.keys.Nodup ∧ ∀ p ∈ r, p.2 ≠ "" := by
  induction xs generalizing result with
  | nil =>
    simp only [insertAll, Prod.mk.injEq, and_true] at h
    subst h
    exact ⟨by simp, hnd, hv⟩
  | cons y ys ih =>
    obtain ⟨r1, h1, h2⟩ := insertAll_cons_ok h
    obtain ⟨name, _, hf, hr1⟩ := insertEmoji_ok h1
    have hnone : result.getOwn name = none := by
      rcases truthy_get_false_iff.1 hf with h | h
      · exact h.1
      · exact absurd rfl (hv _ (Obj.mem_of_getOwn h))
    have hnk := Obj.not_mem_keys_of_getOwn hnone
    have hlen : r1.length = result.length + 1 := by
      rw [← Obj.length_keys, hr1, Obj.keys_setOwn, if_neg hnk]
      simp [Obj.keys]
    have hv1 : ∀ p ∈ r1, p.2 ≠ "" := by
      intro p hp
      rw [hr1] at hp
      rcases Obj.mem_setOwn hp with rfl | hp
      · exact hne y (List.mem_cons_self _ _)
      · exact hv p hp
    have hnd1 : r1.keys.Nodup := by
      rw [hr1]
      exact Obj.nodup_setOwn _ _ hnd
    obtain ⟨a, b, c⟩ := ih h2 hv1 hnd1 (fun x hx => hne x (List.mem_cons_of_mem _ hx))
    refine ⟨?_, b, c⟩
    rw [a, hlen]
    simp only [List.length_cons]
    omega

/-- What every mapping built by the loader satisfies: its names are distinct,
none of them is the name of a member of `Object.prototype` (the guard of line
115 throws on such a name), and its values are codepoint sequences. -/
theorem insertAll_wellFormed {xs : List Emoji} {result r : Obj String}
    (h : insertAll result xs = (r, none))
    (hnd : result.keys.Nodup)
    (hk : ∀ p ∈ result, p.1 ∉ protoNames ∧ isSequence p.2 = true) :
    r.keys.Nodup ∧ ∀ p ∈ r, p.1 ∉ protoNames ∧ isSequence p.2 = true := by
  induction xs generalizing result with
  | nil =>
    simp only [insertAll, Prod.mk.injEq, and_true] at h
    subst h
    exact ⟨hnd, hk⟩
  | cons y ys ih =>
    obtain ⟨r1, h1, h2⟩ := insertAll_cons_ok h
    obtain ⟨name, _, hf, hr1⟩ := insertEmoji_ok h1
    have hname : name ∉ protoNames := by
      rcases truthy_get_false_iff.1 hf with h | h
      · exact h.2
      · exact (hk _ (Obj.mem_of_getOwn h)).1
    apply ih h2
    · rw [hr1]
      exact Obj.nodup_setOwn _ _ hnd
    · intro p hp
      rw [hr1] at hp
      rcases Obj.mem_setOwn hp with rfl | hp
      · exact ⟨hname, stringToCodepoints_isSequence _⟩
      · exact hk p hp

theorem getUnicodeData_eq_insertAll {emojis : List Emoji} {result : Obj String}
    (h : getUnicodeData emojis = .ok result) :
    insertAll [] (recordsOfList emojis) = (result, none) := by
  unfold getUnicodeData at h
  rw [forEachEmoji_eq_insertAll] at h
  rcases hx : insertAll [] (recordsOfList emojis) with ⟨r, _ | err⟩
  · rw [hx] at h
    simp only [Except.ok.injEq] at h
    rw [h]
  · rw [hx] at h
    simp at h

/-- Every Source-B mapping that the loader returns has distinct names, none of
them the name of a member of `Object.prototype` (so none is `__proto__`), and
codepoint sequences as values. -/
theorem getUnicodeData_wellFormed {emojis : List Emoji} {result : Obj String}
    (h : getUnicodeData emojis = .ok result) :
    result.keys.Nodup ∧ ∀ p ∈ result, p.1 ∉ protoNames ∧ isSequence p.2 = true :=
  insertAll_wellFormed (getUnicodeData_eq_insertAll h) (by simp [Obj.keys]) (by simp)

theorem toDigitsCore_ne_nil (b : Nat) : ∀ (f n : Nat) (ds : List Char),
    ds ≠ [] → Nat.toDigitsCore b f n ds ≠ []
  | 0, _, _, h => by simpa [Nat.toDigitsCore] using h
  | f + 1, n, ds, _ => by
    simp only [Nat.toDigitsCore]
    split
    · simp
    · exact toDigitsCore_ne_nil b f _ _ (by simp)

theorem toDigits_ne_nil (b n : Nat) : Nat.toDigits b n ≠ [] := by
  unfold Nat.toDigits
  simp only [Nat.toDigitsCore]
  split
  · simp
  · exact toDigitsCore_ne_nil b _ _ _ (by simp)

theorem stringToCodepoints_ne_empty {s : String} (h : s ≠ "") :
    stringToCodepoints s ≠ "" := by
  obtain ⟨cs⟩ := s
  cases cs with
  | nil => exact absurd rfl h
  | cons c cs =>
    intro e
    have e2 := congrArg String.data e
    simp only [stringToCodepoints, List.map_cons] at e2
    have hd := toDigits_ne_nil 16 c.toNat
    cases hds : Nat.toDigits 16 c.toNat with
    | nil => exact hd hds
    | cons x xs =>
      rw [hds] at e2
      cases cs with
      | nil => simp [List.intercalate] at e2
      | cons c2 cs2 => simp [List.intercalate] at e2


theorem processEmoji_of_truthy (result : Obj String) (e d : String) (vs : List Emoji)
    {name old : String} (hname : resolveName e d = .ok name)
    (hold : result.getOwn name = some old) (hne : old ≠ "") :
    processEmoji result (.mk e d vs)
      = (result, some (.ambiguousName name old (stringToCodepoints e))) := by
  have hg : result.get name = some (.str old) := Obj.get_eq_str_iff.2 hold
  have ht : truthy (some (.str old)) = true := by simp [truthy, hne]
  simp [processEmoji, insertEmoji, hname, ht, hg, toStr]

theorem insertEmoji_of_falsy (result : Obj String) (e d : String)
    {name : String} (hname : resolveName e d = .ok name)
    (hf : truthy (result.get name) = false) :
    insertEmoji result e d = (result.set name (stringToCodepoints e), none) := by
  simp [insertEmoji, hname, hf]

/-! ## The claims on `processEmoji` and `getUnicodeData` -/

/-- C7 (amended): if the resolved name of a record is already a key of the
mapping with a different, non-empty sequence, `processEmoji` fails with the
ambiguous-name error and leaves the mapping as it is; and a forest that holds
this record (with a non-empty sequence) and a record that resolves to the same
name with that other sequence is never loaded. -/
theorem processEmoji_ambiguous_name (result : Obj String) (e d : String) (vs : List Emoji)
    (name old : String) (hname : resolveName e d = .ok name)
    (hold : result.getOwn name = some old) (hne : old ≠ "")
    (hdiff : old ≠ stringToCodepoints e) :
    processEmoji result (.mk e d vs)
        = (result, some (.ambiguousName name old (stringToCodepoints e)))
      ∧ ∀ emojis : List Emoji, Emoji.mk e d vs ∈ recordsOfList emojis →
          stringToCodepoints e ≠ "" →
          (∃ r ∈ recordsOfList emojis, resolveName r.emoji r.description = .ok name
            ∧ stringToCodepoints r.emoji = old) →
          ∃ err, getUnicodeData emojis = .error err := by
  refine ⟨processEmoji_of_truthy result e d vs hname hold hne, ?_⟩
  rintro emojis hmem hcps ⟨r, hr, hrn, hro⟩
  cases hg : getUnicodeData emojis with
  | error err => exact ⟨err, rfl⟩
  | ok res =>
    exfalso
    have hall := getUnicodeData_eq_insertAll hg
    obtain ⟨n1, hn1, hg1⟩ := insertAll_ok_mem hall hr (by rw [hro]; exact hne)
    obtain ⟨n2, hn2, hg2⟩ := insertAll_ok_mem hall hmem (by simpa [Emoji.emoji] using hcps)
    simp only [Emoji.emoji, Emoji.description] at hn2 hg2
    rw [hrn] at hn1
    rw [hname] at hn2
    cases hn1
    cases hn2
    rw [hg1, hro] at hg2
    cases hg2
    exact hdiff rfl

/-- C7, an instance: `x` is already mapped to `62` when the record `a`, described
as `x`, arrives. -/
theorem processEmoji_ambiguous_name_witness :
    processEmoji [("x", "62")] (.mk "a" "x" [])
        = ([("x", "62")], some (.ambiguousName "x" "62" (stringToCodepoints "a")))
      ∧ ∀ emojis : List Emoji, Emoji.mk "a" "x" [] ∈ recordsOfList emojis →
          stringToCodepoints "a" ≠ "" →
          (∃ r ∈ recordsOfList emojis, resolveName r.emoji r.description = .ok "x"
            ∧ stringToCodepoints r.emoji = "62") →
          ∃ err, getUnicodeData emojis = .error err :=
  processEmoji_ambiguous_name [("x", "62")] "a" "x" [] "x" "62" (by decide) (by decide)
    (by decide) (by decide)

/-- C7 as stated fails: `x` is already a key, with the empty sequence of a
record whose display string is empty; the record `a`, described as `x`, has
another sequence, yet `processEmoji` succeeds and overwrites the entry, and
the list of the two records is loaded. -/
theorem processEmoji_ambiguous_name_counterexample :
    resolveName "a" "x" = .ok "x"
      ∧ Obj.getOwn [("x", "")] "x" = some ""
      ∧ "" ≠ stringToCodepoints "a"
      ∧ processEmoji [("x", "")] (.mk "a" "x" []) = ([("x", "61")], none)
      ∧ getUnicodeData [.mk "" "x" [], .mk "a" "x" []] = .ok [("x", "61")] := by
  decide

/-- C8 (amended): `processEmoji` raises the ambiguous-name error whenever the
resolved name already exists with a non-empty sequence, also when that
sequence is the record's own: a record whose resolved name is already mapped
to exactly its own non-empty sequence fails and the mapping stays as it is.
The record's own entry raises no error when the read `result[name]` is falsy:
the name is absent and is not the name of a member inherited from
`Object.prototype`, or it is mapped to the empty string. -/
theorem processEmoji_duplicate_name (result : Obj String) (e d : String) (vs : List Emoji)
    (name : String) (hname : resolveName e d = .ok name)
    (hold : result.getOwn name = some (stringToCodepoints e))
    (hne : stringToCodepoints e ≠ "") :
    processEmoji result (.mk e d vs)
        = (result, some (.ambiguousName name (stringToCodepoints e)
            (stringToCodepoints e)))
      ∧ ∀ other : Obj String,
          (other.getOwn name = none ∧ name ∉ protoNames) ∨ other.getOwn name = some "" →
          processEmoji other (.mk e d vs)
            = forEachEmoji (other.setOwn name (stringToCodepoints e)) vs := by
  refine ⟨processEmoji_of_truthy result e d vs hname hold hne, ?_⟩
  intro other hf
  have hf2 := truthy_get_false_iff.2 hf
  simp [processEmoji, insertEmoji_of_falsy other e d hname hf2, Obj.set_of_falsy _ hf2]

/-- C8, an instance: the record `a`, described as `x`, when `x -> 61` is
already there. -/
theorem processEmoji_duplicate_name_witness :
    processEmoji [("x", "61")] (.mk "a" "x" [])
        = ([("x", "61")], some (.ambiguousName "x" (stringToCodepoints "a")
            (stringToCodepoints "a")))
      ∧ ∀ other : Obj String,
          (other.getOwn "x" = none ∧ "x" ∉ protoNames) ∨ other.getOwn "x" = some "" →
          processEmoji other (.mk "a" "x" [])
            = forEachEmoji (other.setOwn "x" (stringToCodepoints "a")) [] :=
  processEmoji_duplicate_name [("x", "61")] "a" "x" [] "x" (by decide) (by decide)
    (by decide)

/-- C8 as stated fails: the resolved name `x` of the record is already mapped
to exactly the record's own sequence `61`, and `processEmoji` fails with the
ambiguous-name error.  The error is also raised for a name that is in no
mapping: on the empty mapping, the record described as `constructor` fails,
because the read `result["constructor"]` finds the member that every object
inherits. -/
theorem processEmoji_duplicate_name_counterexample :
    (resolveName "a" "x" = .ok "x"
      ∧ Obj.getOwn [("x", "61")] "x" = some (stringToCodepoints "a")
      ∧ processEmoji [("x", "61")] (.mk "a" "x" [])
        = ([("x", "61")], some (.ambiguousName "x" "61" "61")))
    ∧ (resolveName "👷" "constructor" = .ok "constructor"
      ∧ Obj.getOwn ([] : Obj String) "constructor" = none
      ∧ processEmoji [] (.mk "👷" "constructor" [])
        = ([], some (.ambiguousName "constructor"
            "function Object() \x7b [native code] \x7d" "1f477"))) := by
  decide

/-- C9 (amended): loading inserts the own entry of every record of the forest
once, in depth-first pre-order; when it succeeds on a forest whose records all
have a non-empty display string, the returned mapping holds the entry
`resolveName r -> stringToCodepoints r.emoji` of every record `r`, nested
variations included, and has exactly as many entries as the forest has
records. -/
theorem getUnicodeData_records (emojis : List Emoji) (result : Obj String)
    (h : getUnicodeData emojis = .ok result)
    (hne : ∀ r ∈ recordsOfList emojis, r.emoji ≠ "") :
    insertAll [] (recordsOfList emojis) = (result, none)
      ∧ (∀ r ∈ recordsOfList emojis, ∃ name,
          resolveName r.emoji r.description = .ok name
            ∧ result.getOwn name = some (stringToCodepoints r.emoji))
      ∧ result.length = (recordsOfList emojis).length
      ∧ result.keys.Nodup := by
  have hall := getUnicodeData_eq_insertAll h
  have hne2 : ∀ x ∈ recordsOfList emojis, stringToCodepoints x.emoji ≠ "" :=
    fun x hx => stringToCodepoints_ne_empty (hne x hx)
  refine ⟨hall, ?_, ?_, ?_⟩
  · intro r hr
    exact insertAll_ok_mem hall hr (hne2 r hr)
  · have := (insertAll_ok_length hall (by simp) (by simp [Obj.keys]) hne2).1
    simpa using this
  · exact (insertAll_ok_length hall (by simp) (by simp [Obj.keys]) hne2).2.1

/-- C9, an instance: a forest of two trees, the second with two variations. -/
theorem getUnicodeData_records_witness :
    getUnicodeData
        [.mk "😀" "grinning face" [],
         .mk "👋" "waving hand"
           [.mk "👋🏻" "waving hand: light skin tone" [],
            .mk "👋🏿" "waving hand: dark skin tone" []]]
        = .ok [("grinning_face", "1f600"), ("waving_hand", "1f44b"),
            ("waving_hand_light_skin_tone", "1f44b-1f3fb"),
            ("waving_hand_dark_skin_tone", "1f44b-1f3ff")]
      ∧ (recordsOfList
          [.mk "😀" "grinning face" [],
           .mk "👋" "waving hand"
             [.mk "👋🏻" "waving hand: light skin tone" [],
              .mk "👋🏿" "waving hand: dark skin tone" []]]).length = 4
      ∧ (Obj.keys [("grinning_face", "1f600"), ("waving_hand", "1f44b"),
            ("waving_hand_light_skin_tone", "1f44b-1f3fb"),
            ("waving_hand_dark_skin_tone", "1f44b-1f3ff")]).Nodup :=
  ⟨by decide, by decide,
   (getUnicodeData_records
      [.mk "😀" "grinning face" [],
       .mk "👋" "waving hand"
         [.mk "👋🏻" "waving hand: light skin tone" [],
          .mk "👋🏿" "waving hand: dark skin tone" []]]
      [("grinning_face", "1f600"), ("waving_hand", "1f44b"),
        ("waving_hand_light_skin_tone", "1f44b-1f3fb"),
        ("waving_hand_dark_skin_tone", "1f44b-1f3ff")]
      (by decide) (by decide)).2.2.2⟩

/-- C9 as stated fails: the forest of a record with the empty display string and
one variation, both described as `x`, is loaded; it has two records, yet the
mapping has one entry, and the entry of the first record is not in it. -/
theorem getUnicodeData_records_counterexample :
    getUnicodeData [.mk "" "x" [.mk "a" "x" []]] = .ok [("x", "61")]
      ∧ (recordsOfList [.mk "" "x" [.mk "a" "x" []]]).length = 2
      ∧ ([("x", "61")] : Obj String).length = 1
      ∧ resolveName "" "x" = .ok "x"
      ∧ Obj.getOwn [("x", "61")] "x" ≠ some (stringToCodepoints "") := by
  decide


theorem resolveName_of_plain {e d : String}
    (hov : UNICODE_OVERRIDES.getOwn (stringToCodepoints e) = none)
    (hfix : fixupApplies (normalizeName d) (stringToCodepoints e) = false) :
    resolveName e d = .ok (normalizeName d) := by
  unfold resolveName
  simp only [get_stringToCodepoints, hov, Option.map_none', orElse]
  unfold fixupName
  unfold fixupApplies at hfix
  by_cases hs : "_facing_right".data.isSuffixOf (normalizeName d).data = true
  · simp only [hs, Bool.true_and] at hfix
    cases hx : execSkinTone (stringToCodepoints e).data with
    | none => simp [hs]
    | some m => simp [hx] at hfix
  · simp [hs]

theorem isIdentChar_of_isNameChar {c : Char} (h : isNameChar c = true) :
    isIdentChar (if c = ' ' then '_' else c) = true := by
  by_cases hc : c = ' '
  · simp [hc, isIdentChar]
  · simp only [hc, if_false]
    simp only [isNameChar, decide_eq_true_eq] at h
    simp only [isIdentChar, decide_eq_true_eq]
    rcases h with h | h | h | h
    · exact Or.inl h
    · exact Or.inr (Or.inl h)
    · exact absurd h hc
    · exact Or.inr (Or.inr (Or.inr h))

theorem char_eq_of_toNat {c : Char} {n : Nat} (h : c.toNat = n) : c = Char.ofNat n := by
  rw [← h, Char.ofNat_toNat]

/-- The three steps of the normalization, character by character. -/
theorem nameCharsOf_eq (c : Char) :
    ((lowerChar c).filter isNameChar).map (fun x => if x = ' ' then '_' else x)
      = nameCharsOf c := by
  by_cases hcap : 65 ≤ c.toNat ∧ c.toNat ≤ 90
  · obtain ⟨h1, h2⟩ := hcap
    generalize hn : c.toNat = n at h1 h2
    have hc := char_eq_of_toNat hn
    subst hc
    interval_cases n <;> decide
  · by_cases h130 : c.toNat = 0x130
    · have hc := char_eq_of_toNat h130
      subst hc
      decide
    · by_cases h212 : c.toNat = 0x212A
      · have hc := char_eq_of_toNat h212
        subst hc
        decide
      · have hl : lowerChar c = [c] := by simp [lowerChar, hcap, h130, h212]
        have hsp : c = ' ' ↔ c.toNat = 32 := by
          constructor
          · rintro rfl
            rfl
          · intro h
            exact char_eq_of_toNat h
        have hda : c = '-' ↔ c.toNat = 45 := by
          constructor
          · rintro rfl
            rfl
          · intro h
            exact char_eq_of_toNat h
        rw [hl]
        simp only [nameCharsOf, if_neg hcap, if_neg h130, if_neg h212]
        by_cases hkeep : (97 ≤ c.toNat ∧ c.toNat ≤ 122) ∨ (48 ≤ c.toNat ∧ c.toNat ≤ 57)
            ∨ c = '-'
        · have hname : isNameChar c = true := by
            simp only [isNameChar, decide_eq_true_eq]
            rcases hkeep with h | h | h
            · exact Or.inl h
            · exact Or.inr (Or.inl h)
            · exact Or.inr (Or.inr (Or.inr h))
          have hns : ¬ c = ' ' := by
            rw [hsp]
            rcases hkeep with h | h | h
            · omega
            · omega
            · rw [hda] at h
              omega
          simp [hkeep, hname, hns]
        · by_cases hs : c = ' '
          · subst hs
            decide
          · have hname : isNameChar c = false := by
              simp only [isNameChar, decide_eq_false_iff_not]
              rintro (h | h | h | h)
              · exact hkeep (Or.inl h)
              · exact hkeep (Or.inr (Or.inl h))
              · exact hs h
              · exact hkeep (Or.inr (Or.inr h))
            simp [hkeep, hname, hs]

theorem normalizeName_eq_nameCharsOf (d : String) :
    (normalizeName d).data = d.data.flatMap nameCharsOf := by
  simp only [normalizeName, toLowerCase]
  induction d.data with
  | nil => rfl
  | cons c cs ih =>
    simp only [List.flatMap_cons, List.filter_append, List.map_append, ih, nameCharsOf_eq]

/-- C10 (amended): for a record whose sequence is not in the override table and
to which the facing-right fixup does not apply, and whose name, made from the
description by lower-casing it, deleting the characters outside `[a-z0-9 -]`
and replacing every space by an underscore, is neither taken by a non-empty
sequence nor the name of a member inherited from `Object.prototype` (so that
the read `result[name]` is falsy and line 115 does not throw), `processEmoji`
inserts the sequence under that name and goes on with the variations; a
non-empty sequence is still there when the call ends; character by character,
the name is what `nameCharsOf` leaves of the description, and it holds only
characters of `[a-z0-9_-]`. -/
theorem processEmoji_normalized_name (result : Obj String) (e d : String) (vs : List Emoji)
    (hov : UNICODE_OVERRIDES.getOwn (stringToCodepoints e) = none)
    (hfix : fixupApplies (normalizeName d) (stringToCodepoints e) = false)
    (hfree : (result.getOwn (normalizeName d) = none ∧ normalizeName d ∉ protoNames)
      ∨ result.getOwn (normalizeName d) = some "") :
    processEmoji result (.mk e d vs)
        = forEachEmoji (result.setOwn (normalizeName d) (stringToCodepoints e)) vs
      ∧ (e ≠ "" → (processEmoji result (.mk e d vs)).1.getOwn (normalizeName d)
          = some (stringToCodepoints e))
      ∧ (normalizeName d).data = d.data.flatMap nameCharsOf
      ∧ ∀ c ∈ (normalizeName d).data, isIdentChar c = true := by
  have hn := resolveName_of_plain hov hfix
  have hf2 := truthy_get_false_iff.2 hfree
  have heq : processEmoji result (.mk e d vs)
      = forEachEmoji (result.setOwn (normalizeName d) (stringToCodepoints e)) vs := by
    simp [processEmoji, insertEmoji_of_falsy result e d hn hf2, Obj.set_of_falsy _ hf2]
  refine ⟨heq, ?_, normalizeName_eq_nameCharsOf d, ?_⟩
  · intro he
    rw [heq, forEachEmoji_eq_insertAll]
    exact insertAll_persist _ _ (Obj.getOwn_setOwn_self _ _ _) (stringToCodepoints_ne_empty he)
  · intro c hc
    simp only [normalizeName, List.mem_map, List.mem_filter] at hc
    obtain ⟨c2, ⟨_, hname⟩, rfl⟩ := hc
    exact isIdentChar_of_isNameChar hname

/-- C10, the example of the specification, here with capital letters in the
description: the record of U+1F600 described as `Grinning Face` yields
`grinning_face -> 1f600`. -/
theorem processEmoji_normalized_name_witness :
    normalizeName "Grinning Face" = "grinning_face"
      ∧ "Grinning Face".data.flatMap nameCharsOf = "grinning_face".data
      ∧ stringToCodepoints "😀" = "1f600"
      ∧ processEmoji [] (.mk "😀" "Grinning Face" [])
        = ([("grinning_face", "1f600")], none)
      ∧ processEmoji [] (.mk "😀" "grinning face" [])
        = ([("grinning_face", "1f600")], none) :=
  ⟨by decide, by decide, by decide,
   (processEmoji_normalized_name [] "😀" "Grinning Face" [] (by decide) (by decide)
      (by decide)).1.trans (by decide),
   by decide⟩

/-- C10 as stated fails: the sequence `1f477` is not in the override table and
the fixup does not apply, yet on the empty mapping `processEmoji` inserts
nothing for the record described as `constructor`: the read
`result["constructor"]` finds the member that every object inherits, and line
115 throws.  Nor is anything inserted for a record whose name is taken: with
`grinning_face -> 1f600` there, the record of U+1F603 described as
`grinning face` makes line 115 throw. -/
theorem processEmoji_normalized_name_counterexample :
    (UNICODE_OVERRIDES.getOwn (stringToCodepoints "👷") = none
      ∧ fixupApplies (normalizeName "constructor") (stringToCodepoints "👷") = false
      ∧ processEmoji [] (.mk "👷" "constructor" [])
        = ([], some (.ambiguousName "constructor"
            "function Object() \x7b [native code] \x7d" "1f477")))
    ∧ (UNICODE_OVERRIDES.getOwn (stringToCodepoints "😃") = none
      ∧ fixupApplies (normalizeName "grinning face") (stringToCodepoints "😃") = false
      ∧ processEmoji [("grinning_face", "1f600")] (.mk "😃" "grinning face" [])
        = ([("grinning_face", "1f600")],
            some (.ambiguousName "grinning_face" "1f600" "1f603"))) := by
  decide

theorem orElse_some_ne {v : String} {b : Val} (h : v ≠ "") :
    orElse (some (.str v)) b = .str v := by
  simp [orElse, truthy, h]

/-- C11: for a record whose display string encodes to a key of the override
table, `processEmoji` takes the name from the table entry, whatever the
description is: the sequence `23-fe0f-20e3` is filed under `keycap_hash` and
`2a-fe0f-20e3` under `keycap_asterisk`; for a sequence that is not in the table
the description is used. -/
theorem processEmoji_override (e d : String) (key value : String)
    (hmem : (key, value) ∈ UNICODE_OVERRIDES) (hcps : stringToCodepoints e = key) :
    resolveName e d = .ok (normalizeName value)
      ∧ (key = "23-fe0f-20e3" → normalizeName value = "keycap_hash")
      ∧ (key = "2a-fe0f-20e3" → normalizeName value = "keycap_asterisk")
      ∧ (∀ (result : Obj String) (vs : List Emoji),
          truthy (result.get (normalizeName value)) = false →
          processEmoji result (.mk e d vs)
            = forEachEmoji (result.set (normalizeName value) key) vs)
      ∧ (∀ e2 d2 : String, UNICODE_OVERRIDES.getOwn (stringToCodepoints e2) = none →
          resolveName e2 d2 = fixupName (normalizeName d2) (stringToCodepoints e2)) := by
  have hres : resolveName e d = .ok (normalizeName value) := by
    simp only [UNICODE_OVERRIDES, List.mem_cons, Prod.mk.injEq, List.mem_singleton,
      List.not_mem_nil, or_false] at hmem
    rcases hmem with ⟨rfl, rfl⟩ | ⟨rfl, rfl⟩
    · have h1 : UNICODE_OVERRIDES.get "23-fe0f-20e3" = some (.str "keycap: hash") := by
        decide
      unfold resolveName
      simp only [hcps, h1]
      rw [orElse_some_ne (by decide)]
      decide
    · have h1 : UNICODE_OVERRIDES.get "2a-fe0f-20e3" = some (.str "keycap: asterisk") := by
        decide
      unfold resolveName
      simp only [hcps, h1]
      rw [orElse_some_ne (by decide)]
      decide
  refine ⟨hres, ?_, ?_, ?_, ?_⟩
  · rintro rfl
    simp only [UNICODE_OVERRIDES, List.mem_cons, Prod.mk.injEq, List.mem_singleton,
      List.not_mem_nil, or_false] at hmem
    rcases hmem with ⟨_, rfl⟩ | ⟨h, _⟩
    · decide
    · exact absurd h (by decide)
  · rintro rfl
    simp only [UNICODE_OVERRIDES, List.mem_cons, Prod.mk.injEq, List.mem_singleton,
      List.not_mem_nil, or_false] at hmem
    rcases hmem with ⟨h, _⟩ | ⟨_, rfl⟩
    · exact absurd h (by decide)
    · decide
  · intro result vs hf
    have := insertEmoji_of_falsy result e d hres hf
    rw [hcps] at this
    simp [processEmoji, this]
  · intro e2 d2 h2
    simp [resolveName, get_stringToCodepoints, h2, orElse]

/-- C11, the example of the claim: the record of U+0023 U+FE0F U+20E3, with a
description that says something else, is filed under `keycap_hash`. -/
theorem processEmoji_override_witness :
    stringToCodepoints "#️⃣" = "23-fe0f-20e3"
      ∧ resolveName "#️⃣" "number sign" = .ok "keycap_hash"
      ∧ stringToCodepoints "*️⃣" = "2a-fe0f-20e3"
      ∧ resolveName "*️⃣" "" = .ok "keycap_asterisk" :=
  ⟨by decide,
   (processEmoji_override "#️⃣" "number sign" "23-fe0f-20e3" "keycap: hash"
      (by decide) (by decide)).1.trans (by decide),
   by decide,
   (processEmoji_override "*️⃣" "" "2a-fe0f-20e3" "keycap: asterisk"
      (by decide) (by decide)).1.trans (by decide)⟩

/-! ## Lemmas on groups -/

theorem splitOn_dashFree (s : List Char) : ∀ l ∈ s.splitOn '-', '-' ∉ l := by
  induction s with
  | nil => simp
  | cons c s ih =>
    intro l hl
    simp only [List.splitOn, List.splitOnP_cons] at hl ih
    by_cases hc : c = '-'
    · simp only [hc, beq_self_eq_true, if_true, List.mem_cons] at hl
      rcases hl with rfl | hl
      · simp
      · exact ih l hl
    · have hc2 : (c == '-') = false := by simpa using hc
      simp only [hc2, Bool.false_eq_true, if_false] at hl
      cases hsp : List.splitOnP (fun x => x == '-') s with
      | nil => simp [hsp, List.modifyHead] at hl
      | cons h t =>
        rw [hsp] at hl ih
        simp only [List.modifyHead, List.mem_cons] at hl
        rcases hl with rfl | hl
        · have := ih h (List.mem_cons_self _ _)
          simp only [List.mem_cons, not_or]
          exact ⟨fun e => hc e.symm, this⟩
        · exact ih l (List.mem_cons_of_mem _ hl)

theorem splitOn_decomp (s : List Char) :
    ∃ g rest, s.splitOn '-' = g :: rest ∧ s = g ++ dashed rest
      ∧ ∀ l ∈ g :: rest, '-' ∉ l := by
  cases h : s.splitOn '-' with
  | nil => exact absurd h (List.splitOnP_ne_nil _ _)
  | cons g rest =>
    refine ⟨g, rest, rfl, ?_, ?_⟩
    · have := List.intercalate_splitOn s '-'
      rw [h, intercalate_cons_dashed] at this
      exact this.symm
    · rw [← h]
      exact splitOn_dashFree s

theorem splitOn_append_dashed (g : List Char) (rest : List (List Char))
    (h : ∀ l ∈ g :: rest, '-' ∉ l) : (g ++ dashed rest).splitOn '-' = g :: rest := by
  rw [← intercalate_cons_dashed]
  exact List.splitOn_intercalate _ '-' h (by simp)

example : groups "1f468-200d-1f469" = ["1f468".data, "200d".data, "1f469".data] := by decide
example : groups "" = [[]] := by decide

theorem char_b_to_f (x : Char) :
    (98 ≤ x.toNat ∧ x.toNat ≤ 102) ↔ (x = 'b' ∨ x = 'c' ∨ x = 'd' ∨ x = 'e' ∨ x = 'f') := by
  constructor
  · rintro ⟨h1, h2⟩
    have hx : Char.ofNat x.toNat = x := Char.ofNat_toNat x
    generalize x.toNat = n at h1 h2 hx
    subst hx
    interval_cases n
    · exact Or.inl rfl
    · exact Or.inr (Or.inl rfl)
    · exact Or.inr (Or.inr (Or.inl rfl))
    · exact Or.inr (Or.inr (Or.inr (Or.inl rfl)))
    · exact Or.inr (Or.inr (Or.inr (Or.inr rfl)))
  · rintro (rfl | rfl | rfl | rfl | rfl) <;> decide

theorem isModifier_iff (g : List Char) :
    isModifier g = true ↔ ∃ x, (98 ≤ x.toNat ∧ x.toNat ≤ 102) ∧ g = ['1', 'f', '3', 'f', x] := by
  constructor
  · intro h
    simp only [isModifier, decide_eq_true_eq, List.mem_cons, List.mem_singleton,
      List.not_mem_nil, or_false] at h
    rcases h with rfl | rfl | rfl | rfl | rfl
    · exact ⟨'b', by decide, rfl⟩
    · exact ⟨'c', by decide, rfl⟩
    · exact ⟨'d', by decide, rfl⟩
    · exact ⟨'e', by decide, rfl⟩
    · exact ⟨'f', by decide, rfl⟩
  · rintro ⟨x, hx, rfl⟩
    rcases (char_b_to_f x).1 hx with rfl | rfl | rfl | rfl | rfl <;> decide

theorem skinToneAt_ne_dash {c : Char} (r : List Char) (hc : c ≠ '-') :
    skinToneAt (c :: r) = none := by
  unfold skinToneAt
  split
  · rename_i heq
    simp only [List.cons.injEq] at heq
    rw [if_neg]
    intro h
    exact hc (heq.1.trans h.1)
  · rfl

theorem execSkinTone_dashFree (g s : List Char) (hg : '-' ∉ g) :
    execSkinTone (g ++ s) = execSkinTone s := by
  induction g with
  | nil => rfl
  | cons c g ih =>
    simp only [List.mem_cons, not_or] at hg
    simp only [List.cons_append, execSkinTone]
    rw [skinToneAt_ne_dash _ (fun e => hg.1 e.symm)]
    exact ih hg.2

theorem skinToneAt_some_iff (s : List Char) (m : String) :
    skinToneAt s = some m ↔
      ∃ x r, (98 ≤ x.toNat ∧ x.toNat ≤ 102) ∧ s = '-' :: '1' :: 'f' :: '3' :: 'f' :: x :: '-' :: r
        ∧ m = ⟨['1', 'f', '3', 'f', x]⟩ := by
  unfold skinToneAt
  split
  · rename_i c0 c1 c2 c3 c4 x c6 r
    constructor
    · intro h
      split at h
      · rename_i hc
        obtain ⟨rfl, rfl, rfl, rfl, rfl, hx, rfl⟩ := hc
        simp only [Option.some.injEq] at h
        exact ⟨x, r, hx, rfl, h.symm⟩
      · simp at h
    · rintro ⟨x2, r2, hx, heq, rfl⟩
      simp only [List.cons.injEq] at heq
      obtain ⟨rfl, rfl, rfl, rfl, rfl, rfl, rfl, rfl⟩ := heq
      rw [if_pos ⟨rfl, rfl, rfl, rfl, rfl, hx, rfl⟩]
  · rename_i hno
    constructor
    · intro h
      simp at h
    · rintro ⟨x2, r2, _, heq, _⟩
      exact absurd heq (hno _ _ _ _ _ _ _ _)

theorem dashed_head (t : List (List Char)) :
    dashed t = [] ∨ ∃ r, dashed t = '-' :: r := by
  cases t with
  | nil => exact Or.inl rfl
  | cons g rest => exact Or.inr ⟨_, rfl⟩

theorem dashed_eq_nil {t : List (List Char)} : dashed t = [] ↔ t = [] := by
  cases t <;> simp [dashed]

theorem append_dash_inj {a b s r : List Char} (ha : '-' ∉ a) (hb : '-' ∉ b)
    (hs : s = [] ∨ ∃ r2, s = '-' :: r2) (h : a ++ s = b ++ '-' :: r) :
    a = b ∧ s = '-' :: r := by
  induction a generalizing b with
  | nil =>
    cases b with
    | nil => exact ⟨rfl, by simpa using h⟩
    | cons c b =>
      exfalso
      simp only [List.nil_append, List.cons_append] at h
      rcases hs with rfl | ⟨r2, rfl⟩
      · simp at h
      · simp only [List.cons.injEq] at h
        exact hb (by rw [← h.1]; exact List.mem_cons_self _ _)
  | cons c a ih =>
    cases b with
    | nil =>
      exfalso
      simp only [List.nil_append, List.cons_append, List.cons.injEq] at h
      exact ha (by rw [h.1]; exact List.mem_cons_self _ _)
    | cons c2 b =>
      simp only [List.cons_append, List.cons.injEq] at h
      simp only [List.mem_cons, not_or] at ha hb
      obtain ⟨e1, e2⟩ := ih ha.2 hb.2 h.2
      exact ⟨by rw [h.1, e1], e2⟩

theorem skinToneAt_dashed (h : List Char) (t : List (List Char)) (hh : '-' ∉ h) :
    skinToneAt ('-' :: (h ++ dashed t))
      = if isModifier h = true ∧ t ≠ [] then some ⟨h⟩ else none := by
  by_cases hc : isModifier h = true ∧ t ≠ []
  · rw [if_pos hc]
    obtain ⟨x, hx, rfl⟩ := (isModifier_iff h).1 hc.1
    rw [skinToneAt_some_iff]
    cases t with
    | nil => exact absurd rfl hc.2
    | cons g rest => exact ⟨x, g ++ dashed rest, hx, by simp [dashed], rfl⟩
  · rw [if_neg hc]
    cases hs : skinToneAt ('-' :: (h ++ dashed t)) with
    | none => rfl
    | some m =>
      exfalso
      obtain ⟨x, r, hx, heq, _⟩ := (skinToneAt_some_iff _ _).1 hs
      simp only [List.cons.injEq, true_and] at heq
      have hb : '-' ∉ ['1', 'f', '3', 'f', x] := by
        simp only [List.mem_cons, List.mem_singleton, List.not_mem_nil, or_false, not_or]
        refine ⟨by decide, by decide, by decide, by decide, ?_⟩
        rintro rfl
        revert hx
        decide
      have h2 : h ++ dashed t = ['1', 'f', '3', 'f', x] ++ '-' :: r := by simpa using heq
      obtain ⟨e1, e2⟩ := append_dash_inj hh hb (dashed_head t) h2
      apply hc
      refine ⟨(isModifier_iff h).2 ⟨x, hx, e1⟩, ?_⟩
      intro ht
      rw [ht] at e2
      simp [dashed] at e2

theorem execSkinTone_dashed (t : List (List Char)) (ht : ∀ l ∈ t, '-' ∉ l) :
    execSkinTone (dashed t) = (t.dropLast.find? isModifier).map String.mk := by
  induction t with
  | nil => rfl
  | cons h t ih =>
    have hh : '-' ∉ h := ht h (List.mem_cons_self _ _)
    have ih2 := ih (fun l hl => ht l (List.mem_cons_of_mem _ hl))
    simp only [dashed, execSkinTone]
    rw [skinToneAt_dashed h t hh]
    cases t with
    | nil =>
      have h0 := execSkinTone_dashFree h [] hh
      simp only [List.append_nil] at h0
      simp [dashed, h0, execSkinTone]
    | cons g rest =>
      simp only [List.dropLast_cons₂, List.find?_cons]
      by_cases hm : isModifier h = true
      · simp [hm]
      · simp only [hm, false_and, if_false]
        rw [execSkinTone_dashFree _ _ hh, ih2]
        simp [hm]

theorem execSkinTone_groups (cps : String) :
    execSkinTone cps.data = ((interiorGroups cps).find? isModifier).map String.mk := by
  obtain ⟨g, rest, hsp, hdec, hfree⟩ := splitOn_decomp cps.data
  unfold interiorGroups groups
  rw [hsp, List.tail_cons]
  conv_lhs => rw [hdec]
  rw [execSkinTone_dashFree _ _ (hfree g (List.mem_cons_self _ _))]
  exact execSkinTone_dashed rest (fun l hl => hfree l (List.mem_cons_of_mem _ hl))

/-! ## The claims on `fixupName` -/

/-- C12: for every name that ends in `_facing_right` and does not contain
`skin_tone`, and every sequence with a skin tone modifier `1f3fb` .. `1f3ff`
among its interior groups (neither first nor last), `fixupName` returns the
name followed by `_` and the label of the first such interior modifier:
`light_skin_tone`, `medium-light_skin_tone`, `medium_skin_tone`,
`medium-dark_skin_tone`, `dark_skin_tone`. -/
theorem fixupName_appends_label (name cps : String) (m : List Char)
    (hend : "_facing_right".data.isSuffixOf name.data = true)
    (hno : containsSub "skin_tone".data name.data = false)
    (hm : (interiorGroups cps).find? isModifier = some m) :
    fixupName name cps = .ok (name ++ ("_" ++ toStr (SKIN_TONES.get ⟨m⟩)))
      ∧ (m = "1f3fb".data → fixupName name cps = .ok (name ++ "_light_skin_tone"))
      ∧ (m = "1f3fc".data → fixupName name cps = .ok (name ++ "_medium-light_skin_tone"))
      ∧ (m = "1f3fd".data → fixupName name cps = .ok (name ++ "_medium_skin_tone"))
      ∧ (m = "1f3fe".data → fixupName name cps = .ok (name ++ "_medium-dark_skin_tone"))
      ∧ (m = "1f3ff".data → fixupName name cps = .ok (name ++ "_dark_skin_tone"))
      ∧ isModifier m = true := by
  have hfix : fixupName name cps = .ok (name ++ ("_" ++ toStr (SKIN_TONES.get ⟨m⟩))) := by
    unfold fixupName
    rw [if_pos hend, execSkinTone_groups, hm]
    simp [hno]
  refine ⟨hfix, ?_, ?_, ?_, ?_, ?_, ?_⟩
  · rintro rfl
    rw [hfix]
    rfl
  · rintro rfl
    rw [hfix]
    rfl
  · rintro rfl
    rw [hfix]
    rfl
  · rintro rfl
    rw [hfix]
    rfl
  · rintro rfl
    rw [hfix]
    rfl
  · have := List.find?_some hm
    simpa using this

/-- C12, an instance: the sequence of a person walking to the right with the
modifier `1f3fb`, whose name lacks the skin tone. -/
theorem fixupName_appends_label_witness :
    fixupName "person_walking_facing_right" "1f6b6-1f3fb-200d-27a1-fe0f"
      = .ok "person_walking_facing_right_light_skin_tone" :=
  ((fixupName_appends_label "person_walking_facing_right" "1f6b6-1f3fb-200d-27a1-fe0f"
      "1f3fb".data (by decide) (by decide) (by decide)).2.1 rfl).trans (by decide)

/-- C13: `fixupName` fails, with the stale-fixup error, exactly when the name
ends in `_facing_right`, the sequence has a skin tone modifier among its
interior groups, and the name contains `skin_tone`; in every other case it
returns a name; and when it fails for a record, `processEmoji` fails with that
error and leaves the mapping as it is. -/
theorem fixupName_stale_iff (name cps : String) :
    (fixupName name cps = .error .staleFixup ↔
        ("_facing_right".data.isSuffixOf name.data = true
          ∧ (∃ g ∈ interiorGroups cps, isModifier g = true)
          ∧ containsSub "skin_tone".data name.data = true))
      ∧ (¬ ("_facing_right".data.isSuffixOf name.data = true
            ∧ (∃ g ∈ interiorGroups cps, isModifier g = true)
            ∧ containsSub "skin_tone".data name.data = true) →
          ∃ n, fixupName name cps = .ok n)
      ∧ (∀ e, fixupName name cps = .error e → e = .staleFixup)
      ∧ ∀ (result : Obj String) (e d : String) (vs : List Emoji),
          resolveName e d = .error .staleFixup →
          processEmoji result (.mk e d vs) = (result, some .staleFixup) := by
  have hex : (∃ g ∈ interiorGroups cps, isModifier g = true) ↔
      ∃ m, (interiorGroups cps).find? isModifier = some m := by
    constructor
    · rintro ⟨g, hg, hmod⟩
      have : ((interiorGroups cps).find? isModifier).isSome = true :=
        List.find?_isSome.2 ⟨g, hg, hmod⟩
      exact Option.isSome_iff_exists.1 this
    · rintro ⟨m, hm⟩
      exact ⟨m, List.mem_of_find?_eq_some hm, by simpa using List.find?_some hm⟩
  have hcases : (fixupName name cps = .error .staleFixup
        ∧ ("_facing_right".data.isSuffixOf name.data = true
          ∧ (∃ g ∈ interiorGroups cps, isModifier g = true)
          ∧ containsSub "skin_tone".data name.data = true))
      ∨ ((∃ n, fixupName name cps = .ok n)
        ∧ ¬ ("_facing_right".data.isSuffixOf name.data = true
          ∧ (∃ g ∈ interiorGroups cps, isModifier g = true)
          ∧ containsSub "skin_tone".data name.data = true)) := by
    unfold fixupName
    by_cases hend : "_facing_right".data.isSuffixOf name.data = true
    · rw [if_pos hend, execSkinTone_groups]
      cases hf : (interiorGroups cps).find? isModifier with
      | none =>
        right
        refine ⟨⟨name, by simp⟩, ?_⟩
        rintro ⟨_, hg, _⟩
        obtain ⟨m, hm⟩ := hex.1 hg
        rw [hf] at hm
        simp at hm
      | some m =>
        by_cases hs : containsSub "skin_tone".data name.data = true
        · left
          exact ⟨by simp [hs], hend, hex.2 ⟨m, hf⟩, hs⟩
        · right
          refine ⟨⟨name ++ ("_" ++ toStr (SKIN_TONES.get ⟨m⟩)), by simp [hs]⟩, ?_⟩
          rintro ⟨_, _, h3⟩
          exact hs h3
    · right
      rw [if_neg hend]
      exact ⟨⟨name, rfl⟩, fun h => hend h.1⟩
  refine ⟨?_, ?_, ?_, ?_⟩
  · constructor
    · intro h
      rcases hcases with ⟨_, hc⟩ | ⟨⟨n, hn⟩, _⟩
      · exact hc
      · rw [hn] at h
        simp at h
    · intro hc
      rcases hcases with ⟨h, _⟩ | ⟨_, hnc⟩
      · exact h
      · exact absurd hc hnc
  · intro hnc
    rcases hcases with ⟨_, hc⟩ | ⟨h, _⟩
    · exact absurd hc hnc
    · exact h
  · intro e he
    rcases hcases with ⟨h, _⟩ | ⟨⟨n, hn⟩, _⟩
    · rw [h] at he
      simp only [Except.error.injEq] at he
      exact he.symm
    · rw [hn] at he
      simp at he
  · intro result e d vs h
    simp [processEmoji, insertEmoji, h]

/-! ## The claims on `stringToCodepoints` -/

/-- C14: `stringToCodepoints` returns one group for every character (Unicode
scalar value) of the text, in order, joined by `-`; each group is the
lower-case hexadecimal numeral of the character's value without leading zeros;
for a non-empty text the groups of the result are exactly these, so there are as
many groups as characters; U+1F600 gives `1f600`. -/
theorem stringToCodepoints_groups (s : String) :
    ∃ gs : List (List Char), stringToCodepoints s = joinGroups gs
      ∧ gs.length = s.data.length
      ∧ List.Forall₂ (fun c g => isHexNumeralOf g c.toNat) s.data gs
      ∧ (s ≠ "" → groups (stringToCodepoints s) = gs)
      ∧ stringToCodepoints "😀" = "1f600" := by
  refine ⟨s.data.map (fun (c : Char) => Nat.toDigits 16 c.toNat), rfl, by simp, ?_, ?_,
    by decide⟩
  · rw [List.forall₂_map_right_iff]
    exact List.forall₂_same.2 (fun c _ => toDigits_isHexNumeralOf c.toNat)
  · intro hne
    obtain ⟨cs⟩ := s
    cases cs with
    | nil => exact absurd rfl hne
    | cons c cs =>
      simp only [groups, stringToCodepoints]
      apply List.splitOn_intercalate
      · intro l hl
        obtain ⟨x, _, rfl⟩ := List.mem_map.1 hl
        exact isHexNumeralOf_dashFree (toDigits_isHexNumeralOf x.toNat)
      · simp

/-! ## The claims on the stripping of zeros and joiners -/

theorem stripZerosFrom_false_dashFree (g s : List Char) (hg : '-' ∉ g) :
    stripZerosFrom false (g ++ s) = g ++ stripZerosFrom false s := by
  induction g with
  | nil => rfl
  | cons c g ih =>
    simp only [List.mem_cons, not_or] at hg
    have hc : ¬ c = '-' := fun e => hg.1 e.symm
    simp only [List.cons_append, stripZerosFrom, Bool.false_eq_true, false_and, if_false, hc,
      List.append_eq]
    rw [ih hg.2]

theorem stripZerosFrom_true_dashFree (g : List Char) (t : List (List Char))
    (out : List Char) (hg : '-' ∉ g)
    (ht : ∀ b, stripZerosFrom b (dashed t) = out) :
    stripZerosFrom true (g ++ dashed t) = dropZeros g ++ out := by
  induction g with
  | nil => simpa [dropZeros] using ht true
  | cons c g ih =>
    simp only [List.mem_cons, not_or] at hg
    have hc : ¬ c = '-' := fun e => hg.1 e.symm
    by_cases h0 : c = '0'
    · subst h0
      simp only [List.cons_append, stripZerosFrom, and_self, if_true, List.append_eq]
      rw [ih hg.2]
      simp [dropZeros, List.dropWhile_cons]
    · simp only [List.cons_append, stripZerosFrom, h0, and_false, if_false, hc, List.append_eq]
      rw [stripZerosFrom_false_dashFree _ _ hg.2, ht false]
      simp [dropZeros, List.dropWhile_cons, h0]

theorem stripZerosFrom_dashed (t : List (List Char)) (ht : ∀ l ∈ t, '-' ∉ l) (b : Bool) :
    stripZerosFrom b (dashed t) = dashed (t.map dropZeros) := by
  induction t generalizing b with
  | nil => rfl
  | cons h t ih =>
    have ih2 := fun b => ih (fun l hl => ht l (List.mem_cons_of_mem _ hl)) b
    have h0 : ¬ ('-' : Char) = '0' := by decide
    simp only [dashed, stripZerosFrom, h0, and_false, if_false, if_true, List.map_cons]
    rw [stripZerosFrom_true_dashFree h t _ (ht h (List.mem_cons_self _ _)) ih2]

theorem dropZeros_dashFree {g : List Char} (hg : '-' ∉ g) : '-' ∉ dropZeros g :=
  fun h => hg ((List.dropWhile_sublist _).subset h)

theorem stripLeadingZeros_groups (s : String) :
    groups (stripLeadingZeros s) = (groups s).map dropZeros := by
  obtain ⟨g, rest, hsp, hdec, hfree⟩ := splitOn_decomp s.data
  have hrest : ∀ l ∈ rest, '-' ∉ l := fun l hl => hfree l (List.mem_cons_of_mem _ hl)
  have hg : '-' ∉ g := hfree g (List.mem_cons_self _ _)
  unfold groups stripLeadingZeros
  rw [hsp]
  simp only
  rw [hdec, stripZerosFrom_true_dashFree g rest _ hg (stripZerosFrom_dashed rest hrest),
    List.map_cons]
  apply splitOn_append_dashed
  intro l hl
  rcases List.mem_cons.1 hl with rfl | hl
  · exact dropZeros_dashFree hg
  · obtain ⟨x, hx, rfl⟩ := List.mem_map.1 hl
    exact dropZeros_dashFree (hrest x hx)

/-- C15 (amended): the leading-zero stripping of the Source-A loader removes the
leading zeros of every group and nothing else: the groups of the result are the
groups of the input, in order, each without its leading zeros; so a group of the
result is empty exactly when the group of the input consists of zeros only (or
is empty), and a group that holds a non-zero digit stays non-empty. -/
theorem stripLeadingZeros_drops_zeros (s : String) :
    groups (stripLeadingZeros s) = (groups s).map dropZeros
      ∧ (groups (stripLeadingZeros s)).length = (groups s).length
      ∧ ∀ g : List Char, (dropZeros g = [] ↔ ∀ c ∈ g, c = '0') := by
  refine ⟨stripLeadingZeros_groups s, ?_, ?_⟩
  · rw [stripLeadingZeros_groups, List.length_map]
  · intro g
    simp [dropZeros, List.dropWhile_eq_nil_iff]

/-- C15 as stated fails: the groups `1f600` and `0` are non-empty hexadecimal
strings, yet the stripping of `1f600-0` gives `1f600-`, whose second group is
empty; the usual case `0023-20e3` gives `23-20e3`. -/
theorem stripLeadingZeros_counterexample :
    groups "1f600-0" = ["1f600".data, "0".data]
      ∧ stripLeadingZeros "1f600-0" = "1f600-"
      ∧ groups (stripLeadingZeros "1f600-0") = ["1f600".data, []]
      ∧ stripLeadingZeros "0023-20e3" = "23-20e3" := by
  decide

theorem append_boundary_inj {a b s r : List Char} (ha : '-' ∉ a) (hb : '-' ∉ b)
    (hs : s = [] ∨ ∃ r2, s = '-' :: r2) (hr : r = [] ∨ ∃ r2, r = '-' :: r2)
    (h : a ++ s = b ++ r) : a = b ∧ s = r := by
  rcases hr with rfl | ⟨r2, rfl⟩
  · rcases hs with rfl | ⟨s2, rfl⟩
    · simp only [List.append_nil] at h
      exact ⟨h, rfl⟩
    · obtain ⟨e1, e2⟩ := append_dash_inj hb ha (Or.inl rfl) h.symm
      simp at e2
  · exact append_dash_inj ha hb hs h

theorem atBoundary_iff (r : List Char) :
    atBoundary r = true ↔ (r = [] ∨ ∃ r2, r = '-' :: r2) := by
  cases r with
  | nil => simp [atBoundary]
  | cons c r => simp [atBoundary]

theorem joinerPrefix_iff (l : List Char) :
    joinerPrefix l = true ↔ ∃ j r, l = j ++ r ∧ isJoiner j = true := by
  simp only [joinerPrefix, Bool.or_eq_true, List.isPrefixOf_iff_prefix]
  constructor
  · rintro (⟨r, hr⟩ | ⟨r, hr⟩)
    · exact ⟨_, r, hr.symm, by decide⟩
    · exact ⟨_, r, hr.symm, by decide⟩
  · rintro ⟨j, r, rfl, hj⟩
    simp only [isJoiner, decide_eq_true_eq] at hj
    rcases hj with rfl | rfl
    · exact Or.inl ⟨r, rfl⟩
    · exact Or.inr ⟨r, rfl⟩

theorem isJoiner_length {j : List Char} (h : isJoiner j = true) : j.length = 4 := by
  simp only [isJoiner, decide_eq_true_eq] at h
  rcases h with rfl | rfl <;> rfl

theorem isJoiner_dashFree {j : List Char} (h : isJoiner j = true) : '-' ∉ j := by
  simp only [isJoiner, decide_eq_true_eq] at h
  rcases h with rfl | rfl <;> decide

theorem joinerGroupAt_dashed (h : List Char) (t : List (List Char)) (hh : '-' ∉ h) :
    joinerGroupAt (h ++ dashed t) = isJoiner h := by
  apply Bool.eq_iff_iff.2
  simp only [joinerGroupAt, Bool.and_eq_true]
  constructor
  · rintro ⟨hp, hb⟩
    obtain ⟨j, r, heq, hj⟩ := (joinerPrefix_iff _).1 hp
    have hr : List.drop 4 (h ++ dashed t) = r := by
      rw [heq, ← isJoiner_length hj]
      simp
    rw [hr] at hb
    obtain ⟨e1, _⟩ := append_boundary_inj hh (isJoiner_dashFree hj) (dashed_head t)
      ((atBoundary_iff r).1 hb) heq
    rw [e1]
    exact hj
  · intro hj
    refine ⟨(joinerPrefix_iff _).2 ⟨h, dashed t, rfl, hj⟩, ?_⟩
    have : List.drop 4 (h ++ dashed t) = dashed t := by
      rw [← isJoiner_length hj]
      simp
    rw [this]
    exact (atBoundary_iff _).2 (dashed_head t)

theorem replaceJoiners_ne_dash {c : Char} (l : List Char) (hc : c ≠ '-') :
    replaceJoiners (c :: l) = c :: replaceJoiners l := by
  rcases l with _ | ⟨a, _ | ⟨b, _ | ⟨c2, _ | ⟨d, r⟩⟩⟩⟩ <;> simp [replaceJoiners, hc]

theorem replaceJoiners_dash (l : List Char) :
    replaceJoiners ('-' :: l)
      = if joinerGroupAt l = true then replaceJoiners (l.drop 4)
        else '-' :: replaceJoiners l := by
  rcases l with _ | ⟨a, _ | ⟨b, _ | ⟨c2, _ | ⟨d, r⟩⟩⟩⟩
  · simp [replaceJoiners, joinerGroupAt, joinerPrefix]
  · simp [replaceJoiners, joinerGroupAt, joinerPrefix]
  · simp [replaceJoiners, joinerGroupAt, joinerPrefix]
  · simp [replaceJoiners, joinerGroupAt, joinerPrefix]
  · have hp : joinerPrefix (a :: b :: c2 :: d :: r) = joinerPrefix [a, b, c2, d] := by
      simp [joinerPrefix, List.isPrefixOf]
    simp only [replaceJoiners, joinerGroupAt, hp, List.drop_succ_cons, List.drop_zero,
      Bool.and_eq_true, true_and]

theorem replaceJoiners_dashFree (g s : List Char) (hg : '-' ∉ g) :
    replaceJoiners (g ++ s) = g ++ replaceJoiners s := by
  induction g with
  | nil => rfl
  | cons c g ih =>
    simp only [List.mem_cons, not_or] at hg
    rw [List.cons_append, replaceJoiners_ne_dash _ (fun e => hg.1 e.symm), ih hg.2,
      List.cons_append]

theorem replaceJoiners_dashed (t : List (List Char)) (ht : ∀ l ∈ t, '-' ∉ l) :
    replaceJoiners (dashed t) = dashed (t.filter fun g => !isJoiner g) := by
  induction t with
  | nil => rfl
  | cons h t ih =>
    have hh : '-' ∉ h := ht h (List.mem_cons_self _ _)
    have ih2 := ih (fun l hl => ht l (List.mem_cons_of_mem _ hl))
    simp only [dashed]
    rw [replaceJoiners_dash, joinerGroupAt_dashed h t hh]
    by_cases hj : isJoiner h = true
    · have hd : List.drop 4 (h ++ dashed t) = dashed t := by
        rw [← isJoiner_length hj]
        simp
      rw [if_pos hj, hd, ih2]
      simp [List.filter_cons, hj]
    · rw [if_neg hj, replaceJoiners_dashFree _ _ hh, ih2]
      simp [List.filter_cons, hj, dashed]

theorem joinerAfterDash_dashFree (g s : List Char) (hg : '-' ∉ g) :
    joinerAfterDash (g ++ s) = joinerAfterDash s := by
  induction g with
  | nil => rfl
  | cons c g ih =>
    simp only [List.mem_cons, not_or] at hg
    have hc : ¬ c = '-' := fun e => hg.1 e.symm
    simp only [List.cons_append, joinerAfterDash, hc, decide_False, Bool.false_and,
      Bool.false_or]
    exact ih hg.2

theorem joinerAfterDash_dashed (t : List (List Char)) (ht : ∀ l ∈ t, '-' ∉ l) :
    joinerAfterDash (dashed t) = t.any isJoiner := by
  induction t with
  | nil => rfl
  | cons h t ih =>
    have hh : '-' ∉ h := ht h (List.mem_cons_self _ _)
    simp only [dashed, joinerAfterDash, decide_True, Bool.true_and, List.any_cons]
    rw [joinerGroupAt_dashed h t hh, joinerAfterDash_dashFree _ _ hh,
      ih (fun l hl => ht l (List.mem_cons_of_mem _ hl))]

theorem hasLeftover_dashed (g : List Char) (t : List (List Char))
    (h : ∀ l ∈ g :: t, '-' ∉ l) :
    hasLeftover ⟨g ++ dashed t⟩ = (isJoiner g || t.any isJoiner) := by
  have hg : '-' ∉ g := h g (List.mem_cons_self _ _)
  have ht : ∀ l ∈ t, '-' ∉ l := fun l hl => h l (List.mem_cons_of_mem _ hl)
  simp only [hasLeftover]
  rw [joinerGroupAt_dashed g t hg, joinerAfterDash_dashFree _ _ hg,
    joinerAfterDash_dashed t ht]

theorem hasLeftover_groups (s : String) : hasLeftover s = (groups s).any isJoiner := by
  obtain ⟨g, rest, hsp, hdec, hfree⟩ := splitOn_decomp s.data
  have : s = ⟨g ++ dashed rest⟩ := by
    obtain ⟨cs⟩ := s
    simp only at hdec
    rw [hdec]
  unfold groups
  rw [hsp, List.any_cons]
  conv_lhs => rw [this]
  exact hasLeftover_dashed g rest hfree

theorem stripJoinersAndSelectors_dashed (s : String) (g : List Char)
    (rest : List (List Char)) (hdec : s.data = g ++ dashed rest)
    (hfree : ∀ l ∈ g :: rest, '-' ∉ l) :
    stripJoinersAndSelectors s
      = if isJoiner g = true then
          .error (.leftoverJoiner ⟨g ++ dashed (rest.filter fun x => !isJoiner x)⟩ s)
        else .ok ⟨g ++ dashed (rest.filter fun x => !isJoiner x)⟩ := by
  have hg : '-' ∉ g := hfree g (List.mem_cons_self _ _)
  have hrest : ∀ l ∈ rest, '-' ∉ l := fun l hl => hfree l (List.mem_cons_of_mem _ hl)
  have hfree2 : ∀ l ∈ g :: rest.filter (fun x => !isJoiner x), '-' ∉ l := by
    intro l hl
    rcases List.mem_cons.1 hl with rfl | hl
    · exact hg
    · exact hrest l (List.mem_of_mem_filter hl)
  have hany : (rest.filter fun x => !isJoiner x).any isJoiner = false := by
    rw [List.any_eq_false]
    intro x hx
    have := (List.mem_filter.1 hx).2
    simpa using this
  unfold stripJoinersAndSelectors
  simp only
  rw [hdec, replaceJoiners_dashFree _ _ hg, replaceJoiners_dashed rest hrest,
    hasLeftover_dashed _ _ hfree2, hany, Bool.or_false]

/-- C16: when the stripping of the reconciler succeeds on a sequence string, the
groups of the result are exactly the groups of the input that are neither
`200d` nor `fe0f`, in their order, and no group of the result is `200d` or
`fe0f`. -/
theorem stripJoinersAndSelectors_groups (cps rv : String)
    (h : stripJoinersAndSelectors cps = .ok rv) :
    groups rv = (groups cps).filter (fun g => !isJoiner g)
      ∧ ∀ g ∈ groups rv, isJoiner g = false := by
  obtain ⟨g, rest, hsp, hdec, hfree⟩ := splitOn_decomp cps.data
  have hg : '-' ∉ g := hfree g (List.mem_cons_self _ _)
  have hrest : ∀ l ∈ rest, '-' ∉ l := fun l hl => hfree l (List.mem_cons_of_mem _ hl)
  rw [stripJoinersAndSelectors_dashed cps g rest hdec hfree] at h
  by_cases hj : isJoiner g = true
  · simp [hj] at h
  · rw [if_neg hj] at h
    simp only [Except.ok.injEq] at h
    have hgr : groups rv = g :: rest.filter (fun x => !isJoiner x) := by
      rw [← h]
      unfold groups
      apply splitOn_append_dashed
      intro l hl
      rcases List.mem_cons.1 hl with rfl | hl
      · exact hg
      · exact hrest l (List.mem_of_mem_filter hl)
    constructor
    · rw [hgr]
      unfold groups
      rw [hsp, List.filter_cons]
      simp [hj]
    · intro x hx
      rw [hgr] at hx
      rcases List.mem_cons.1 hx with rfl | hx
      · simpa using hj
      · simpa using (List.mem_filter.1 hx).2

/-- C16, an instance: a family sequence with two joiners and a selector. -/
theorem stripJoinersAndSelectors_groups_witness :
    stripJoinersAndSelectors "1f468-200d-2764-fe0f-200d-1f468" = .ok "1f468-2764-1f468"
      ∧ groups "1f468-2764-1f468"
        = (groups "1f468-200d-2764-fe0f-200d-1f468").filter (fun g => !isJoiner g)
      ∧ ∀ g ∈ groups "1f468-2764-1f468", isJoiner g = false :=
  ⟨by decide,
   stripJoinersAndSelectors_groups "1f468-200d-2764-fe0f-200d-1f468" "1f468-2764-1f468"
     (by decide)⟩

/-- C17: the stripping of the reconciler is idempotent: applied to its own
result it succeeds and returns that result. -/
theorem stripJoinersAndSelectors_idempotent (s rv : String)
    (h : stripJoinersAndSelectors s = .ok rv) :
    stripJoinersAndSelectors rv = .ok rv := by
  obtain ⟨g, rest, _, hdec, hfree⟩ := splitOn_decomp s.data
  have hg : '-' ∉ g := hfree g (List.mem_cons_self _ _)
  have hrest : ∀ l ∈ rest, '-' ∉ l := fun l hl => hfree l (List.mem_cons_of_mem _ hl)
  rw [stripJoinersAndSelectors_dashed s g rest hdec hfree] at h
  by_cases hj : isJoiner g = true
  · simp [hj] at h
  · rw [if_neg hj] at h
    simp only [Except.ok.injEq] at h
    have hfree2 : ∀ l ∈ g :: rest.filter (fun x => !isJoiner x), '-' ∉ l := by
      intro l hl
      rcases List.mem_cons.1 hl with rfl | hl
      · exact hg
      · exact hrest l (List.mem_of_mem_filter hl)
    have hdec2 : rv.data = g ++ dashed (rest.filter fun x => !isJoiner x) := by
      rw [← h]
    rw [stripJoinersAndSelectors_dashed rv g _ hdec2 hfree2, if_neg hj, List.filter_filter]
    simp only [Bool.and_self]
    rw [← h]

/-- C17, an instance: stripping `2764-fe0f` and stripping the result again. -/
theorem stripJoinersAndSelectors_idempotent_witness :
    stripJoinersAndSelectors "2764-fe0f" = .ok "2764"
      ∧ stripJoinersAndSelectors "2764" = .ok "2764" :=
  ⟨by decide, stripJoinersAndSelectors_idempotent "2764-fe0f" "2764" (by decide)⟩

/-- C19: the stripping of the reconciler fails, with the leftover-joiner error,
exactly when the first group of the sequence string is `200d` or `fe0f` (the
replacement only removes groups that follow a `-`); on every other string it
succeeds. -/
theorem stripJoinersAndSelectors_fails_iff (cps : String) :
    ((∃ rv, stripJoinersAndSelectors cps = .error (.leftoverJoiner rv cps))
        ↔ isJoiner ((groups cps).headD []) = true)
      ∧ ((∃ rv, stripJoinersAndSelectors cps = .ok rv)
        ↔ isJoiner ((groups cps).headD []) = false)
      ∧ (∀ e, stripJoinersAndSelectors cps = .error e →
          e = .leftoverJoiner ⟨replaceJoiners cps.data⟩ cps) := by
  obtain ⟨g, rest, hsp, hdec, hfree⟩ := splitOn_decomp cps.data
  have hstrip := stripJoinersAndSelectors_dashed cps g rest hdec hfree
  have hhead : (groups cps).headD [] = g := by
    unfold groups
    rw [hsp]
    rfl
  rw [hhead]
  refine ⟨?_, ?_, ?_⟩
  · by_cases hj : isJoiner g = true
    · simp only [hj, if_true] at hstrip
      simp [hstrip, hj]
    · simp only [hj, if_false] at hstrip
      simp [hstrip, hj]
  · by_cases hj : isJoiner g = true
    · simp only [hj, if_true] at hstrip
      simp [hstrip, hj]
    · simp only [hj, if_false] at hstrip
      simp [hstrip, hj]
  · intro e he
    unfold stripJoinersAndSelectors at he
    simp only at he
    split at he
    · simp only [Except.error.injEq] at he
      exact he.symm
    · simp at he

theorem stripJoinersAndSelectors_ok_leftover {v rv : String}
    (h : stripJoinersAndSelectors v = .ok rv) : hasLeftover rv = false := by
  unfold stripJoinersAndSelectors at h
  simp only at h
  split at h
  · simp at h
  · rename_i hl
    simp only [Except.ok.injEq] at h
    rw [← h]
    simpa using hl

/-- C20: if a Source-A entry carries a sequence with a group `200d` or `fe0f`,
`main` never succeeds, whatever the Source-B mapping is (also when it holds
exactly that sequence): no key of the table `githubToUnicode` has such a group,
the Source-A sequence is looked up as it is, and when the table could be built
the run fails with the unmatched-vendor-entry error. -/
theorem main_vendor_joiner (githubData unicodeData : Obj String) (name cps : String)
    (hmem : (name, cps) ∈ githubData)
    (hj : ∃ g ∈ groups cps, isJoiner g = true) :
    (∃ e, main githubData unicodeData = .error e)
      ∧ ∀ githubToUnicode, buildTable [] (Obj.values unicodeData) = .ok githubToUnicode →
          (∀ k v, githubToUnicode.get k = some v → ∀ g ∈ groups k, isJoiner g = false)
            ∧ githubToUnicode.get cps = none
            ∧ ∃ n s, (n, s) ∈ githubData
              ∧ main githubData unicodeData = .error (.unmatchedVendor n s) := by
  have hleft : hasLeftover cps = true := by
    rw [hasLeftover_groups, List.any_eq_true]
    exact hj
  have hkeys : ∀ tbl, buildTable [] (Obj.values unicodeData) = .ok tbl →
      ∀ k v, tbl.get k = some v → hasLeftover k = false := by
    intro tbl ht k v hk
    cases v with
    | str w =>
      rcases buildTable_sound ht (Obj.get_eq_str_iff.1 hk) with h1 | ⟨_, h2⟩
      · simp [Obj.getOwn] at h1
      · exact stripJoinersAndSelectors_ok_leftover h2
    | inherited j =>
      exact hasLeftover_protoName k (Obj.get_eq_inherited_iff.1 hk).2.1
  have hsecond : ∀ tbl, buildTable [] (Obj.values unicodeData) = .ok tbl →
      (∀ k v, tbl.get k = some v → ∀ g ∈ groups k, isJoiner g = false)
        ∧ tbl.get cps = none
        ∧ ∃ n s, (n, s) ∈ githubData
          ∧ main githubData unicodeData = .error (.unmatchedVendor n s) := by
    intro tbl ht
    have hnone : tbl.get cps = none := by
      cases hg : tbl.get cps with
      | none => rfl
      | some v =>
        have := hkeys tbl ht cps v hg
        rw [hleft] at this
        simp at this
    refine ⟨?_, hnone, ?_⟩
    · intro k v hk g hg
      have := hkeys tbl ht k v hk
      rw [hasLeftover_groups, List.any_eq_false] at this
      simpa using this g hg
    · unfold main
      simp only [ht]
      cases hc : claimVendor tbl [] [] (Obj.entries githubData) with
      | error e =>
        obtain ⟨p, hp, he⟩ := claimVendor_error hc
        exact ⟨p.1, p.2, Obj.mem_entries.1 hp, by rw [he]⟩
      | ok x =>
        exfalso
        have htr := claimVendor_truthy hc _ (Obj.mem_entries.2 hmem)
        simp only [hnone, truthy] at htr
        exact Bool.false_ne_true htr
  refine ⟨?_, hsecond⟩
  cases ht : buildTable [] (Obj.values unicodeData) with
  | error e =>
    refine ⟨e, ?_⟩
    unfold main
    simp only [ht]
  | ok tbl =>
    obtain ⟨_, _, n, s, _, hm⟩ := hsecond tbl ht
    exact ⟨_, hm⟩

/-- C20, an instance: Source-A and Source-B hold the same sequence with a joiner,
and the run fails with the unmatched-vendor-entry error. -/
theorem main_vendor_joiner_witness :
    main [("couple", "1f468-200d-1f469")] [("man_and_woman", "1f468-200d-1f469")]
      = .error (.unmatchedVendor "couple" "1f468-200d-1f469")
      ∧ ∃ e, main [("couple", "1f468-200d-1f469")] [("man_and_woman", "1f468-200d-1f469")]
          = .error e :=
  ⟨by decide,
   (main_vendor_joiner [("couple", "1f468-200d-1f469")]
      [("man_and_woman", "1f468-200d-1f469")] "couple" "1f468-200d-1f469" (by decide)
      ⟨"200d".data, by decide, by decide⟩).1⟩

/-! ## The claim on `getGithubData` -/

theorem lazyGroupPng_sound : ∀ (r m : List Char), lazyGroupPng r = some m →
    ∃ post, r = m ++ (".png".data ++ post) ∧ m ≠ [] ∧ ∀ c ∈ m, isLineTerminator c = false
  | [], m, h => by simp [lazyGroupPng] at h
  | c :: rest, m, h => by
    unfold lazyGroupPng at h
    by_cases hlt : isLineTerminator c = true
    · simp [hlt] at h
    · rw [if_neg hlt] at h
      by_cases hp : ".png".data.isPrefixOf rest = true
      · rw [if_pos hp] at h
        simp only [Option.some.injEq] at h
        subst h
        obtain ⟨post, hpost⟩ := List.isPrefixOf_iff_prefix.1 hp
        exact ⟨post, by simp [← hpost], by simp, by simpa using hlt⟩
      · rw [if_neg hp] at h
        cases hr : lazyGroupPng rest with
        | none => simp [hr] at h
        | some m0 =>
          simp only [hr, Option.map_some', Option.some.injEq] at h
          subst h
          obtain ⟨post, h1, _, h3⟩ := lazyGroupPng_sound rest m0 hr
          refine ⟨post, by simp [h1], by simp, ?_⟩
          intro x hx
          rcases List.mem_cons.1 hx with rfl | hx
          · simpa using hlt
          · exact h3 x hx

theorem lazyGroupPng_min : ∀ (r m : List Char), lazyGroupPng r = some m →
    ∀ m2 post2, r = m2 ++ (".png".data ++ post2) → m2 ≠ [] → m.length ≤ m2.length
  | [], m, h => by simp [lazyGroupPng] at h
  | c :: rest, m, h => by
    intro m2 post2 hdec hne
    unfold lazyGroupPng at h
    by_cases hlt : isLineTerminator c = true
    · simp [hlt] at h
    · rw [if_neg hlt] at h
      cases m2 with
      | nil => exact absurd rfl hne
      | cons c2 m3 =>
        simp only [List.cons_append, List.cons.injEq] at hdec
        by_cases hp : ".png".data.isPrefixOf rest = true
        · rw [if_pos hp] at h
          simp only [Option.some.injEq] at h
          subst h
          simp
        · rw [if_neg hp] at h
          cases hr : lazyGroupPng rest with
          | none => simp [hr] at h
          | some m0 =>
            simp only [hr, Option.map_some', Option.some.injEq] at h
            subst h
            have hm3 : m3 ≠ [] := by
              rintro rfl
              apply hp
              rw [List.isPrefixOf_iff_prefix]
              exact ⟨post2, by simp [hdec.2]⟩
            have := lazyGroupPng_min rest m0 hr m3 post2 hdec.2 hm3
            simp only [List.length_cons]
            omega

theorem lazyGroupPng_complete : ∀ (m2 post2 : List Char), m2 ≠ [] →
    (∀ c ∈ m2, isLineTerminator c = false) →
    ∃ m, lazyGroupPng (m2 ++ (".png".data ++ post2)) = some m
  | [], _, hne, _ => absurd rfl hne
  | c :: m3, post2, _, hlt => by
    have hc : ¬ isLineTerminator c = true := by
      simpa using hlt c (List.mem_cons_self _ _)
    change ∃ m, lazyGroupPng (c :: (m3 ++ (".png".data ++ post2))) = some m
    unfold lazyGroupPng
    rw [if_neg hc]
    by_cases hp : ".png".data.isPrefixOf (m3 ++ (".png".data ++ post2)) = true
    · rw [if_pos hp]
      exact ⟨_, rfl⟩
    · rw [if_neg hp]
      have hm3 : m3 ≠ [] := by
        rintro rfl
        apply hp
        rw [List.isPrefixOf_iff_prefix]
        exact ⟨post2, by simp⟩
      obtain ⟨m, hm⟩ := lazyGroupPng_complete m3 post2 hm3
        (fun x hx => hlt x (List.mem_cons_of_mem _ hx))
      exact ⟨c :: m, by rw [hm]; rfl⟩

theorem unicodePngAt_some {s m : List Char} (h : unicodePngAt s = some m) :
    ∃ post, isUnicodePngMatch s [] m post
      ∧ lazyGroupPng (m ++ (".png".data ++ post)) = some m := by
  unfold unicodePngAt at h
  by_cases hp : "/unicode/".data.isPrefixOf s = true
  · rw [if_pos hp] at h
    obtain ⟨r, hr⟩ := List.isPrefixOf_iff_prefix.1 hp
    have hd : List.drop 9 s = r := by
      rw [← hr]
      rfl
    rw [hd] at h
    obtain ⟨post, h1, h2, h3⟩ := lazyGroupPng_sound r m h
    refine ⟨post, ⟨?_, h2, h3⟩, ?_⟩
    · rw [← hr, h1]
      rfl
    · rw [← h1]
      exact h
  · simp [hp] at h

theorem unicodePngAt_of_match {s m post : List Char} (h : isUnicodePngMatch s [] m post) :
    ∃ m0, unicodePngAt s = some m0 ∧ m0.length ≤ m.length := by
  obtain ⟨h1, h2, h3⟩ := h
  simp only [List.nil_append] at h1
  have hp : "/unicode/".data.isPrefixOf s = true := by
    rw [List.isPrefixOf_iff_prefix]
    exact ⟨_, h1.symm⟩
  have hd : List.drop 9 s = m ++ (".png".data ++ post) := by
    rw [h1]
    rfl
  unfold unicodePngAt
  rw [if_pos hp, hd]
  obtain ⟨m0, hm0⟩ := lazyGroupPng_complete m post h2 h3
  exact ⟨m0, hm0, lazyGroupPng_min _ _ hm0 m post rfl h2⟩

theorem isUnicodePngMatch_nil_left {pre m post : List Char} :
    ¬ isUnicodePngMatch [] pre m post := by
  rintro ⟨h, _, _⟩
  have := congrArg List.length h
  simp at this
  omega

theorem isUnicodePngMatch_cons {c c2 : Char} {rest pre m post : List Char}
    (h : isUnicodePngMatch (c :: rest) (c2 :: pre) m post) :
    isUnicodePngMatch rest pre m post := by
  obtain ⟨h1, h2, h3⟩ := h
  simp only [List.cons_append, List.cons.injEq] at h1
  exact ⟨h1.2, h2, h3⟩

theorem execUnicodePng_complete : ∀ (pre s m post : List Char),
    isUnicodePngMatch s pre m post → ∃ m0, execUnicodePng s = some m0
  | pre, [], m, post, h => absurd h isUnicodePngMatch_nil_left
  | [], c :: rest, m, post, h => by
    obtain ⟨m0, hm0, _⟩ := unicodePngAt_of_match h
    exact ⟨m0, by simp [execUnicodePng, hm0]⟩
  | c2 :: pre, c :: rest, m, post, h => by
    unfold execUnicodePng
    cases hat : unicodePngAt (c :: rest) with
    | some m0 => exact ⟨m0, rfl⟩
    | none => exact execUnicodePng_complete pre rest m post (isUnicodePngMatch_cons h)

theorem execUnicodePng_sound : ∀ (s m : List Char), execUnicodePng s = some m →
    ∃ pre post, isUnicodePngMatch s pre m post
      ∧ ∀ pre2 m2 post2, isUnicodePngMatch s pre2 m2 post2 →
          pre.length < pre2.length ∨ (pre.length = pre2.length ∧ m.length ≤ m2.length)
  | [], m, h => by simp [execUnicodePng] at h
  | c :: rest, m, h => by
    unfold execUnicodePng at h
    cases hat : unicodePngAt (c :: rest) with
    | some m0 =>
      simp only [hat, Option.some.injEq] at h
      subst h
      obtain ⟨post, hmatch, _⟩ := unicodePngAt_some hat
      refine ⟨[], post, hmatch, ?_⟩
      intro pre2 m2 post2 h2
      cases pre2 with
      | nil =>
        right
        obtain ⟨m1, hm1, hle⟩ := unicodePngAt_of_match h2
        rw [hat] at hm1
        cases hm1
        exact ⟨rfl, hle⟩
      | cons c2 pre2 =>
        left
        simp
    | none =>
      simp only [hat] at h
      obtain ⟨pre, post, hmatch, hmin⟩ := execUnicodePng_sound rest m h
      refine ⟨c :: pre, post, ?_, ?_⟩
      · obtain ⟨h1, h2, h3⟩ := hmatch
        exact ⟨by rw [h1]; rfl, h2, h3⟩
      · intro pre2 m2 post2 h2
        cases pre2 with
        | nil =>
          exfalso
          obtain ⟨m1, hm1, _⟩ := unicodePngAt_of_match h2
          rw [hat] at hm1
          simp at hm1
        | cons c2 pre2 =>
          rcases hmin pre2 m2 post2 (isUnicodePngMatch_cons h2) with hlt | ⟨heq, hle⟩
          · left
            simp only [List.length_cons]
            omega
          · right
            exact ⟨by simp [heq], hle⟩

theorem execUnicodePng_none_iff (s : List Char) :
    execUnicodePng s = none ↔ ¬ ∃ pre m post, isUnicodePngMatch s pre m post := by
  constructor
  · rintro h ⟨pre, m, post, hm⟩
    obtain ⟨m0, hm0⟩ := execUnicodePng_complete pre s m post hm
    rw [h] at hm0
    simp at hm0
  · intro h
    cases hs : execUnicodePng s with
    | none => rfl
    | some m =>
      exfalso
      obtain ⟨pre, post, hm, _⟩ := execUnicodePng_sound s m hs
      exact h ⟨pre, m, post, hm⟩

theorem collectGithub_getOwn_other (raw : Obj String) {keys : List String}
    {acc : Obj String} {key : String} (hk : key ∉ keys) :
    (collectGithub raw acc keys).getOwn key = acc.getOwn key := by
  induction keys generalizing acc with
  | nil => rfl
  | cons k keys ih =>
    simp only [List.mem_cons, not_or] at hk
    unfold collectGithub
    cases hx : execUnicodePng (toStr (raw.get k)).data with
    | none => exact ih hk.2
    | some m1 =>
      simp only
      rw [ih hk.2, Obj.getOwn_set_ne _ _ _ _ hk.1]

theorem collectGithub_getOwn (raw : Obj String) {keys : List String} {acc : Obj String}
    {key : String} (hnd : keys.Nodup) (hk : key ∈ keys) (hacc : acc.getOwn key = none)
    (hp : key ≠ "__proto__") :
    (collectGithub raw acc keys).getOwn key
      = (execUnicodePng (toStr (raw.get key)).data).map
          (fun m => stripLeadingZeros ⟨m⟩) := by
  induction keys generalizing acc with
  | nil => simp at hk
  | cons k keys ih =>
    simp only [List.nodup_cons] at hnd
    unfold collectGithub
    rcases List.mem_cons.1 hk with rfl | hk2
    · cases hx : execUnicodePng (toStr (raw.get key)).data with
      | none =>
        simp only [Option.map_none']
        rw [collectGithub_getOwn_other raw hnd.1]
        exact hacc
      | some m1 =>
        simp only [Option.map_some']
        rw [collectGithub_getOwn_other raw hnd.1, Obj.getOwn_set_self _ _ hp]
    · have hne : key ≠ k := by
        rintro rfl
        exact hnd.1 hk2
      cases hx : execUnicodePng (toStr (raw.get k)).data with
      | none => exact ih hnd.2 hk2 hacc
      | some m1 =>
        simp only
        apply ih hnd.2 hk2
        rw [Obj.getOwn_set_ne _ _ _ _ hne]
        exact hacc

/-- The loop of the Source-A loader keeps the names distinct and never creates
a property `__proto__`. -/
theorem collectGithub_wellFormed (raw : Obj String) (keys : List String) {acc : Obj String}
    (hnd : acc.keys.Nodup) (hp : "__proto__" ∉ acc.keys) :
    (collectGithub raw acc keys).keys.Nodup
      ∧ "__proto__" ∉ (collectGithub raw acc keys).keys := by
  induction keys generalizing acc with
  | nil => exact ⟨hnd, hp⟩
  | cons k keys ih =>
    unfold collectGithub
    cases hx : execUnicodePng (toStr (raw.get k)).data with
    | none => exact ih hnd hp
    | some m1 => exact ih (Obj.nodup_set _ _ hnd) (Obj.proto_not_mem_set _ _ hp)

/-- Every Source-A mapping that the loader returns has distinct names, none of
them `__proto__`. -/
theorem getGithubData_wellFormed (githubRawData : Obj String) :
    (getGithubData githubRawData).keys.Nodup
      ∧ "__proto__" ∉ (getGithubData githubRawData).keys :=
  collectGithub_wellFormed githubRawData _ (by simp [Obj.keys]) (by simp [Obj.keys])

theorem dropZeros_of_isJoiner {g : List Char} (h : isJoiner g = true) : dropZeros g = g := by
  simp only [isJoiner, decide_eq_true_eq] at h
  rcases h with rfl | rfl <;> decide

/-- C18 (amended): for every vendor map (an object, so with distinct keys), the
result of the Source-A loader has exactly the keys, other than `__proto__`,
whose URL holds `/unicode/`, then at least one character, none of them a line
terminator, then `.png`; the other entries are absent, without error, and so is
the key `__proto__`, for which the assignment creates no property.  The value
of a retained key is the text taken at the leftmost such `/unicode/` and, from
there, the shortest one up to a `.png`, with the leading zeros of every group
stripped; groups `200d` and `fe0f` stay as they are. -/
theorem getGithubData_entries (githubRawData : Obj String)
    (hnd : githubRawData.keys.Nodup) :
    (∀ key url, (key, url) ∈ githubRawData → key ≠ "__proto__" →
        (getGithubData githubRawData).getOwn key
          = (execUnicodePng url.data).map (fun m => stripLeadingZeros ⟨m⟩))
      ∧ (getGithubData githubRawData).getOwn "__proto__" = none
      ∧ (∀ key, key ∉ githubRawData.keys →
          (getGithubData githubRawData).getOwn key = none)
      ∧ (∀ s : List Char,
          execUnicodePng s = none ↔ ¬ ∃ pre m post, isUnicodePngMatch s pre m post)
      ∧ (∀ s m : List Char, execUnicodePng s = some m →
          ∃ pre post, isUnicodePngMatch s pre m post
            ∧ ∀ pre2 m2 post2, isUnicodePngMatch s pre2 m2 post2 →
                pre.length < pre2.length
                  ∨ (pre.length = pre2.length ∧ m.length ≤ m2.length))
      ∧ (∀ m : String, groups (stripLeadingZeros m) = (groups m).map dropZeros)
      ∧ (∀ g : List Char, isJoiner g = true → dropZeros g = g) := by
  have hkeys : ((Obj.entries githubRawData).map Prod.fst).Nodup := Obj.nodup_entries hnd
  refine ⟨?_, ?_, ?_, execUnicodePng_none_iff, execUnicodePng_sound,
    stripLeadingZeros_groups, fun g hg => dropZeros_of_isJoiner hg⟩
  · intro key url hmem hp
    have hk : key ∈ (Obj.entries githubRawData).map Prod.fst :=
      List.mem_map.2 ⟨(key, url), Obj.mem_entries.2 hmem, rfl⟩
    unfold getGithubData
    have hget := @collectGithub_getOwn githubRawData _ [] key hkeys hk rfl hp
    rw [hget, Obj.get_eq_str_iff.2 (Obj.getOwn_of_mem hnd hmem)]
    rfl
  · exact Obj.getOwn_eq_none (getGithubData_wellFormed githubRawData).2
  · intro key hk
    unfold getGithubData
    rw [collectGithub_getOwn_other]
    · rfl
    · intro h
      obtain ⟨p, hp, rfl⟩ := List.mem_map.1 h
      exact hk (List.mem_map.2 ⟨p, Obj.mem_entries.1 hp, rfl⟩)

/-- C18, the example of the claim: the keycap image gives `23-20e3`, and the
entry that is no code point image is dropped. -/
theorem getGithubData_entries_witness :
    getGithubData
        [("hash", "https://github.githubassets.com/images/icons/emoji/unicode/0023-20e3.png?v8"),
         ("octocat", "https://github.githubassets.com/images/icons/emoji/octocat.png?v8")]
        = [("hash", "23-20e3")]
      ∧ (∀ key, key ∉ Obj.keys
            [("hash", "https://github.githubassets.com/images/icons/emoji/unicode/0023-20e3.png?v8"),
             ("octocat", "https://github.githubassets.com/images/icons/emoji/octocat.png?v8")] →
          (getGithubData
            [("hash", "https://github.githubassets.com/images/icons/emoji/unicode/0023-20e3.png?v8"),
             ("octocat", "https://github.githubassets.com/images/icons/emoji/octocat.png?v8")]).getOwn key
            = none) :=
  ⟨by decide,
   (getGithubData_entries
      [("hash", "https://github.githubassets.com/images/icons/emoji/unicode/0023-20e3.png?v8"),
       ("octocat", "https://github.githubassets.com/images/icons/emoji/octocat.png?v8")]
      (by decide)).2.2.1⟩

/-- C18 as stated fails: the URL `/unicode/1f600`, line feed, `.png` holds
`/unicode/`, then at least one character, then `.png`, yet its key is dropped;
for `/unicode/x/unicode/1f600.png` the value is `x/unicode/1f600`, although
`1f600` is a shorter text between `/unicode/` and `.png`; and the key
`__proto__`, with the URL of a code point image, is absent from the result. -/
theorem getGithubData_entries_counterexample :
    ("/unicode/1f600\n.png" : String) = "/unicode/" ++ "1f600\n" ++ ".png"
      ∧ Obj.getOwn (getGithubData [("smile", "/unicode/1f600\n.png")]) "smile" = none
      ∧ ("/unicode/x/unicode/1f600.png" : String)
          = "/unicode/x" ++ "/unicode/" ++ "1f600" ++ ".png"
      ∧ getGithubData [("smile", "/unicode/x/unicode/1f600.png")]
          = [("smile", "x/unicode/1f600")]
      ∧ getGithubData [("__proto__", "/unicode/1f600.png"), ("smile", "/unicode/1f604.png")]
          = [("smile", "1f604")] := by
  decide
end GenerateMap
